import Mathlib

/-!
# Verification of the Propolis S3 synchronizer (russross/s3dirsync)

A shallow embedding, in Lean 4, of the parts of the Go source that the
specification talks about:

* the per-path reconciliation engine (`SyncFile`, `LstatServer`,
  `UploadFile` in `sync.go`), modelled as pure functions from an
  environment (local stat result, the cache table, oracle results of the
  remote calls) to the ordered trace of externally visible actions;
* the metadata cache queries (`GetFileInfo`, `GetPathFromMd5` backed by
  the sqlite table `cache(path PRIMARY KEY, md5, uid, gid, mode, mtime,
  size)` with an index on md5), modelled over an association list of rows;
* the debounced bounded-concurrency update queue (`StartQueue` in
  `main.go`), modelled as a state machine driven by the coordinator's
  channel events;
* request signing (`SignRequest` in `s3.go`), the metadata header
  protocol (`SetRequestMetaData` / `GetResponseMetaData`), the `ETag`
  handling of `StatRequest`, and the bucket-name validation of
  `parseBucket`.

Machine integers of the Go source are modelled as `Nat` / `Int`; none of
the verified paths exercise wraparound.  The external collaborators the
spec declares out of scope (sqlite itself, the HTTP stack, the user
database, `time.SecondsToLocalTime`, HMAC-SHA1) appear as oracle fields
of the environment or as function parameters.
-/

/-! ## File metadata (Go `os.FileInfo`, the fields the program reads) -/

/-- The fields of Go's `os.FileInfo` that Propolis reads and writes:
`Mode uint32`, `Uid int`, `Gid int`, `Size int64`, `Mtime_ns int64`. -/
structure FileInfo where
  mode : Nat
  uid : Int
  gid : Int
  size : Int
  mtimeNs : Int
  deriving DecidableEq, Repr

/-- Constant `s_ifmt = 0170000`: the file-type bit mask (from `s3.go`). -/
def s_ifmt : Nat := 0o170000

/-- Constant `s_iflnk = 0120000`. -/
def s_iflnk : Nat := 0o120000

/-- Constant `s_ifreg = 0100000`. -/
def s_ifreg : Nat := 0o100000

/-- Constant `s_ifdir = 040000`. -/
def s_ifdir : Nat := 0o40000

/-- Constant `s_iroth = 04`: the world-read permission bit. -/
def s_iroth : Nat := 0o4

/-- Go `info.IsRegular()`: `Mode & S_IFMT == S_IFREG`. -/
def FileInfo.isRegular (i : FileInfo) : Bool := i.mode &&& s_ifmt == s_ifreg

/-- Go `info.IsSymlink()`: `Mode & S_IFMT == S_IFLNK`. -/
def FileInfo.isSymlink (i : FileInfo) : Bool := i.mode &&& s_ifmt == s_iflnk

/-- Go `info.IsDirectory()`: `Mode & S_IFMT == S_IFDIR`. -/
def FileInfo.isDirectory (i : FileInfo) : Bool := i.mode &&& s_ifmt == s_ifdir

/-- Go `info.Permission()`: `Mode & 0777`. -/
def FileInfo.permission (i : FileInfo) : Nat := i.mode &&& 0o777

/-- Literal `empty_file_md5_hash` from `sync.go`: the md5 of the empty input. -/
def empty_file_md5_hash : String := "d41d8cd98f00b204e9800998ecf8427e"

/-! ## The metadata cache (`cache.go`, table `cache`) -/

/-- One row of the sqlite table
`cache (path TEXT PRIMARY KEY, md5 TEXT, uid, gid, mode, mtime, size)`. -/
structure CacheRow where
  path : String
  md5 : String
  uid : Int
  gid : Int
  mode : Nat
  mtimeNs : Int
  size : Int
  deriving DecidableEq, Repr

/-- Reconstruct an `os.FileInfo` from a cache row the way `GetFileInfo`
does (`stmt.Scan` into Uid/Gid/Mode/Mtime_ns/Size; `Name` is the path). -/
def CacheRow.info (r : CacheRow) : FileInfo :=
  { mode := r.mode, uid := r.uid, gid := r.gid, size := r.size, mtimeNs := r.mtimeNs }

/-- Cache query `GetFileInfo`: `SELECT md5, uid, gid, mode, mtime, size FROM cache
WHERE path = ?` — the row for the given server path, if any. -/
def GetFileInfo (cache : List CacheRow) (serverPath : String) : Option CacheRow :=
  cache.find? (fun r => r.path == serverPath)

/-- Cache query `GetPathFromMd5`: first `SELECT path FROM cache WHERE md5 = ? AND
path = ?` (prefer a metadata-only update on the file itself), then
`SELECT path FROM cache WHERE md5 = ? LIMIT 1`.  Returns `""` when no row
has the hash.  Note that only the md5 is compared; the stored size is not
consulted. -/
def GetPathFromMd5 (cache : List CacheRow) (hash : String) (serverPath : String) : String :=
  if cache.any (fun r => r.md5 == hash && r.path == serverPath) then
    serverPath
  else
    match cache.find? (fun r => r.md5 == hash) with
    | some r => r.path
    | none => ""

/-! ## Reconciliation environment and action traces -/

/-- An entry of the `ByContents` map built by `ScanServer`
(`hash → {ServerPath, ServerSize}`). -/
structure ScanEntry where
  serverPath : String
  serverSize : Int
  deriving DecidableEq, Repr

/-- Configuration: the `Propolis` struct fields used by the reconciler. -/
structure Propolis where
  bucket : String
  refresh : Bool
  paranoid : Bool
  practice : Bool
  directories : Bool
  deriving DecidableEq, Repr

/-- Everything a single `SyncFile` run observes from the outside world:
the local stat result, the cache table, and the oracle outcomes of the
fallible external calls.  A `...Ok` field is the success/failure of the
corresponding call in this run. -/
structure Env where
  serverPath : String
  localInfo : Option FileInfo
  cache : List CacheRow
  /-- Field `elt.ServerHashHex` as set by a prior server scan; `""` for files
  created by `NewFile` (the watch/queue path). -/
  serverHashHex : String
  /-- HEAD result: server metadata on a hit, `none` on 404. -/
  statResult : Option FileInfo
  /-- Whether the HEAD request itself succeeded; `false` means a wire failure (non-2xx, non-404). -/
  statOk : Bool
  /-- The md5 hex digest `GetMd5` computes for the local content. -/
  localHashHex : String
  getMd5Ok : Bool
  /-- Result of the `p.ByContents[localHashHex]` lookup result (`none` also covers a
  nil map). -/
  byContents : Option ScanEntry
  deleteRequestOk : Bool
  uploadRequestOk : Bool
  copyRequestOk : Bool
  removeOk : Bool
  dbDeleteOk : Bool
  dbSetOk : Bool
  deriving DecidableEq, Repr

/-- The externally visible actions a reconciliation can perform, in
order.  Requests carry the success of the call. -/
inductive Act where
  /-- cache read (`GetFileInfo`). -/
  | getFileInfo
  /-- wire read (`StatRequest` HEAD); the flag records a server hit. -/
  | statRequest (hit : Bool)
  /-- cache row insert (`SetFileInfo`); `uselocal` as in the source. -/
  | setFileInfo (uselocal : Bool) (ok : Bool)
  /-- cache row delete (`DeleteFileInfo`). -/
  | deleteFileInfo (ok : Bool)
  /-- wire mutation: `DeleteRequest`. -/
  | deleteRequest (ok : Bool)
  /-- wire mutation: `UploadRequest`. -/
  | uploadRequest (ok : Bool)
  /-- wire mutation: `CopyRequest` with its source argument. -/
  | copyRequest (src : String) (ok : Bool)
  /-- local hashing (`GetMd5`), opens `Contents`. -/
  | getMd5 (ok : Bool)
  /-- local filesystem delete (`os.Remove`, Pull direction). -/
  | removeLocal (ok : Bool)
  /-- Call `elt.Contents.Close()`. -/
  | closeContents
  deriving DecidableEq, Repr

/-- Mutating wire requests (`DeleteRequest`, `UploadRequest`,
`CopyRequest`). HEAD is read-only. -/
def Act.isWireMutation : Act → Bool
  | .deleteRequest _ => true
  | .uploadRequest _ => true
  | .copyRequest _ _ => true
  | _ => false

/-- Any wire call, the read-only HEAD included. -/
def Act.isWireCall : Act → Bool
  | .statRequest _ => true
  | a => a.isWireMutation

/-- Cache-table mutations (`SetFileInfo` / `DeleteFileInfo`). -/
def Act.isCacheMutation : Act → Bool
  | .setFileInfo _ _ => true
  | .deleteFileInfo _ => true
  | _ => false

/-- Any durable write the run performs: a cache mutation or a local
filesystem delete. -/
def Act.isWrite : Act → Bool
  | .removeLocal _ => true
  | a => a.isCacheMutation

/-! ## `LstatServer` (sync.go) -/

/-- Result of resolving the cache/server view: the action trace, the
`CacheInfo` and `CacheHashHex` fields afterwards, and an error flag. -/
structure LstatResult where
  trace : List Act
  cacheInfo : Option FileInfo
  cacheHashHex : String
  failed : Bool
  deriving DecidableEq, Repr

/-- Function `LstatServer`: load the cache row; if the file has a scan hash
(`ServerHashHex ≠ ""`) but the cache missed, issue a HEAD and, on a hit,
insert the freshly learned row (`SetFileInfo(elt, false)`).
`CacheHashHex` is only ever set by `GetFileInfo`. -/
def LstatServer (env : Env) : LstatResult :=
  match GetFileInfo env.cache env.serverPath with
  | some row => ⟨[.getFileInfo], some row.info, row.md5, false⟩
  | none =>
    if env.serverHashHex ≠ "" then
      if env.statOk then
        match env.statResult with
        | some info =>
          ⟨[.getFileInfo, .statRequest true, .setFileInfo false env.dbSetOk],
            some info, "", !env.dbSetOk⟩
        | none => ⟨[.getFileInfo, .statRequest false], none, "", false⟩
      else ⟨[.getFileInfo, .statRequest false], none, "", true⟩
    else ⟨[.getFileInfo], none, "", false⟩

/-! ## `UploadFile` (sync.go) -/

/-- The "kind of file we don't track" test of `UploadFile`: not regular,
not a symlink, and directories only when `-directories` is on. -/
def untrackedKind (p : Propolis) (l : FileInfo) : Bool :=
  !l.isRegular && !l.isSymlink && (!p.directories || !l.isDirectory)

/-- Model of `path.Join("/", bucket, src)` for the clean, non-empty components the
program passes (bucket names and stored cache paths). -/
def joinBucket (bucket src : String) : String :=
  "/" ++ bucket ++ "/" ++ src

/-- The `src :=` selection of `UploadFile`: empty hash never copies; an
unchanged hash copies the file onto itself (metadata-only update); with
`-refresh` on, the server scan's `ByContents` entry is used when its size
matches; otherwise `GetPathFromMd5` proposes any cached path with the
same md5 (no size comparison). -/
def uploadSrc (p : Propolis) (env : Env) (hash cacheHashHex : String) (size : Int) :
    String :=
  if hash == empty_file_md5_hash then ""
  else if hash == cacheHashHex then env.serverPath
  else
    let scanSrc :=
      if p.refresh then
        match env.byContents with
        | some e => if e.serverSize == size then e.serverPath else ""
        | none => ""
      else ""
    if scanSrc ≠ "" then scanSrc
    else GetPathFromMd5 env.cache hash env.serverPath

/-- The tail of `UploadFile` once the md5 hash is known: pick the copy
source `uploadSrc`, then copy (falling back to upload) or upload, and
finally commit the cache row (`SetFileInfo(elt, true)`).  `hash` is
`elt.LocalHashHex`, `size` the (directory-adjusted) local size,
`cacheHashHex` the value loaded by `GetFileInfo`. -/
def uploadCore (p : Propolis) (env : Env) (hash cacheHashHex : String) (size : Int) :
    List Act × Bool :=
  if uploadSrc p env hash cacheHashHex size ≠ "" then
    if p.practice then ([], false)
    else
      if env.copyRequestOk then
        ([.copyRequest (joinBucket p.bucket (uploadSrc p env hash cacheHashHex size)) true,
          .closeContents, .setFileInfo true env.dbSetOk], !env.dbSetOk)
      else
        if env.uploadRequestOk then
          ([.copyRequest (joinBucket p.bucket (uploadSrc p env hash cacheHashHex size)) false,
            .uploadRequest true, .setFileInfo true env.dbSetOk], !env.dbSetOk)
        else
          ([.copyRequest (joinBucket p.bucket (uploadSrc p env hash cacheHashHex size)) false,
            .uploadRequest false], true)
  else
    if p.practice then ([], false)
    else
      if env.uploadRequestOk then
        ([.uploadRequest true, .setFileInfo true env.dbSetOk], !env.dbSetOk)
      else ([.uploadRequest false], true)

/-- Function `UploadFile`: clear the cache row first, bail out on untracked kinds
(deleting a remotely masked old file if one was cached), compute the md5
if not already known, then run `uploadCore`.  `l` is `elt.LocalInfo`
(non-nil whenever `UploadFile` is called), `hash0` the value of
`elt.LocalHashHex` on entry (`""` unless `SyncFile` already hashed),
`cacheInfo` / `cacheHashHex` the state left by `LstatServer`. -/
def UploadFile (p : Propolis) (env : Env) (l : FileInfo)
    (cacheInfo : Option FileInfo) (cacheHashHex : String) (hash0 : String) :
    List Act × Bool :=
  match cacheInfo with
  | some _ =>
    if !env.dbDeleteOk then ([.deleteFileInfo false], true)
    else
      if env.serverPath == "" || untrackedKind p l then
        -- the current file must have replaced an old regular file
        if p.practice then ([.deleteFileInfo true], false)
        else
          if env.deleteRequestOk then
            ([.deleteFileInfo true, .deleteRequest true, .deleteFileInfo env.dbDeleteOk],
              !env.dbDeleteOk)
          else ([.deleteFileInfo true, .deleteRequest false], true)
      else
        if hash0 == "" then
          if env.getMd5Ok then
            let size := if l.isDirectory then 0 else l.size
            let (tr, e) := uploadCore p env env.localHashHex cacheHashHex size
            ([.deleteFileInfo true, .getMd5 true] ++ tr, e)
          else ([.deleteFileInfo true, .getMd5 false], true)
        else
          let size := if l.isDirectory then 0 else l.size
          let (tr, e) := uploadCore p env hash0 cacheHashHex size
          ([.deleteFileInfo true] ++ tr, e)
  | none =>
    if env.serverPath == "" || untrackedKind p l then ([], false)
    else
      if hash0 == "" then
        if env.getMd5Ok then
          let size := if l.isDirectory then 0 else l.size
          let (tr, e) := uploadCore p env env.localHashHex cacheHashHex size
          ([.getMd5 true] ++ tr, e)
        else ([.getMd5 false], true)
      else
        let size := if l.isDirectory then 0 else l.size
        let (tr, e) := uploadCore p env hash0 cacheHashHex size
        (tr, e)

/-! ## `SyncFile` (sync.go) -/

instance : Inhabited FileInfo := ⟨⟨0, 0, 0, 0, 0⟩⟩

/-- Metadata disagreement between the local stat and the cache row, the
five fields `SyncFile` compares. -/
def metaDiffers (l c : FileInfo) : Bool :=
  l.mode ≠ c.mode || l.uid ≠ c.uid || l.gid ≠ c.gid ||
    l.size ≠ c.size || l.mtimeNs ≠ c.mtimeNs

/-- Function `SyncFile`: stat the local side, resolve the cache/server view via
`LstatServer`, then run the three-way decision for the given direction
(`push = elt.Push`).  Returns the action trace and the error flag. -/
def SyncFile (p : Propolis) (env : Env) (push : Bool) : List Act × Bool :=
  let ls := LstatServer env
  if ls.failed then (ls.trace, true)
  else
    match env.localInfo, ls.cacheInfo with
    | none, none => (ls.trace, false)
    | lo, co =>
      if push then
        match lo, co with
        | none, some _ =>
          -- delete the remote file (request before cache row)
          if p.practice then (ls.trace, false)
          else
            if env.deleteRequestOk then
              (ls.trace ++ [.deleteRequest true, .deleteFileInfo env.dbDeleteOk],
                !env.dbDeleteOk)
            else (ls.trace ++ [.deleteRequest false], true)
        | some l, co =>
          if co.isNone || metaDiffers l (co.getD l) then
            -- remote update needed
            let (tr, e) := UploadFile p env l co ls.cacheHashHex ""
            (ls.trace ++ tr, e)
          else
            if p.paranoid then
              if env.getMd5Ok then
                if env.localHashHex == ls.cacheHashHex then
                  (ls.trace ++ [.getMd5 true, .closeContents], false)
                else
                  let (tr, e) := UploadFile p env l co ls.cacheHashHex env.localHashHex
                  (ls.trace ++ [.getMd5 true] ++ tr, e)
              else (ls.trace ++ [.getMd5 false], true)
            else (ls.trace, false)
        | none, none => (ls.trace, false)
      else
        -- pull direction
        match lo, co with
        | some _, none =>
          if p.practice then (ls.trace, false)
          else (ls.trace ++ [.removeLocal env.removeOk], !env.removeOk)
        | lo2, co2 =>
          if lo2.isNone || metaDiffers (lo2.getD default) (co2.getD (lo2.getD default)) then
            -- local update needed; DownloadFile is an empty stub in the source
            (ls.trace, false)
          else
            if p.paranoid then
              if env.getMd5Ok then
                if env.localHashHex == ls.cacheHashHex then
                  (ls.trace ++ [.getMd5 true, .closeContents], false)
                else (ls.trace ++ [.getMd5 true, .closeContents], false)
              else (ls.trace ++ [.getMd5 false], true)
            else (ls.trace, false)

example : (SyncFile ⟨"b", false, false, false, false⟩
    ⟨"a", none, [], "", none, true, "h", true, none, true, true, true, true, true, true⟩
    true).1 = [.getFileInfo] := by decide

/-! ## The update queue (`StartQueue`, main.go)

The coordinator goroutine of `StartQueue` owns a min-heap of candidates
ordered by `Inserted`, a map `path → candidate` (whose key set always
equals the set of names in the heap, since every insertion and removal
updates both), an in-flight counter, a `waiting` flag and a shutdown
latch.  It is driven by four channels: `check` (ingress), `timeout`,
`finished` and `quit`; events are handled one at a time.  We model the
heap as a list kept sorted by `Inserted` (any order consistent with the
heap's `Less` is a faithful realization of `container/heap`), the map as
the derived name set, and each channel receive as one event of a trace. -/

/-- Element of the ingress channel (`FileName` in main.go). -/
structure FileName where
  name : String
  immediate : Bool
  push : Bool
  deriving DecidableEq, Repr

/-- A queued path (`Candidate` in main.go). -/
structure Candidate where
  name : String
  inserted : Int
  updated : Int
  push : Bool
  deriving DecidableEq, Repr

/-- Parameters of `StartQueue`: `delay` in seconds, `maxInFlight`. -/
structure QConfig where
  delay : Int
  maxInFlight : Nat
  deriving DecidableEq, Repr

/-- Coordinator state: the pending queue (sorted by `inserted`), the
in-flight counter, the sleeper flag, and the shutdown latch
(`shutdown ≠ nil` in the source). -/
structure QState where
  queue : List Candidate
  inflight : Nat
  waiting : Bool
  shutdown : Bool
  deriving DecidableEq, Repr

/-- Initial coordinator state. -/
def initQ : QState := ⟨[], 0, false, false⟩

/-- Nanoseconds of the debounce delay: `int64(delay) * 1e9`. -/
def delayNs (cfg : QConfig) : Int := cfg.delay * 1000000000

/-- Ordered insertion into the pending queue (`heap.Push`). -/
def qinsert (c : Candidate) : List Candidate → List Candidate
  | [] => [c]
  | d :: ds => if c.inserted < d.inserted then c :: d :: ds else d :: qinsert c ds

/-- Touch the existing entry for a path: refresh `Updated` and `Push`
(the heap position is unchanged because `Inserted` is unchanged). -/
def touchCand (path : String) (now : Int) (push : Bool) : List Candidate → List Candidate
  | [] => []
  | d :: ds =>
    if d.name == path then { d with updated := now, push := push } :: ds
    else d :: touchCand path now push ds

/-- Number of queued candidates that were touched while waiting
(`Inserted ≠ Updated`); part of the termination measure of the drain
loop. -/
def touchedCount (q : List Candidate) : Nat :=
  (q.filter (fun c => c.inserted != c.updated)).length

/-- One channel event received by the coordinator. -/
inductive QEvent where
  /-- a `FileName` arriving on the `check` channel at wall time `now`. -/
  | ingress (fn : FileName) (now : Int)
  /-- a sleeper signalling the `timeout` channel; `now` is the wall time
  the coordinator reads on waking. -/
  | timeout (now : Int)
  /-- a worker signalling the `finished` channel. -/
  | finished
  /-- a shutdown request on the `quit` channel. -/
  | quit
  deriving DecidableEq, Repr

/-- The `case <-timeout` drain loop: repeatedly pop the minimum; requeue
a touched entry with `Inserted = Updated`; stop at a head younger than
`delay` (unless shutting down) or when no worker slot is free; otherwise
dispatch the head and continue.  The fuel argument only bounds the
recursion: each iteration either lowers `touchedCount` (requeue of a
touched entry) or the queue length (dispatch), so
`length + touchedCount + 1` fuel can never run out. -/
def drainGo (cfg : QConfig) (now : Int) (shutdown : Bool) :
    Nat → List Candidate → Nat → List Candidate × Nat × List (String × Bool)
  | 0, q, inflight => (q, inflight, [])
  | fuel + 1, q, inflight =>
    match q with
    | [] => ([], inflight, [])
    | c :: rest =>
      if c.inserted != c.updated then
        drainGo cfg now shutdown fuel (qinsert { c with inserted := c.updated } rest) inflight
      else if now - c.inserted < delayNs cfg && !shutdown then
        (qinsert c rest, inflight, [])
      else if inflight < cfg.maxInFlight then
        let r := drainGo cfg now shutdown fuel rest (inflight + 1)
        (r.1, r.2.1, (c.name, c.push) :: r.2.2)
      else (qinsert c rest, inflight, [])

/-- The drain loop with its always-sufficient fuel. -/
def drain (cfg : QConfig) (now : Int) (shutdown : Bool) (q : List Candidate) (inflight : Nat) :
    List Candidate × Nat × List (String × Bool) :=
  drainGo cfg now shutdown (q.length + touchedCount q + 1) q inflight

/-- One iteration of the coordinator's `select`: handle a single event,
returning the new state and the reconciliations dispatched (path and the
`push` flag each worker observes). -/
def handleEvent (cfg : QConfig) (s : QState) : QEvent → QState × List (String × Bool)
  | .ingress fn now =>
    if s.queue.any (fun c => c.name == fn.name) then
      ({ s with queue := touchCand fn.name now fn.push s.queue }, [])
    else
      let base := if fn.immediate then now - delayNs cfg else now
      ({ s with queue := qinsert ⟨fn.name, base, base, fn.push⟩ s.queue }, [])
  | .timeout now =>
    let r := drain cfg now s.shutdown s.queue s.inflight
    ({ s with queue := r.1, inflight := r.2.1, waiting := false }, r.2.2)
  | .finished => ({ s with inflight := s.inflight - 1 }, [])
  | .quit => ({ s with shutdown := true, waiting := false }, [])

/-- Sleeper arming after every event: `!waiting && inflight < maxInFlight
&& queue.Len() > 0` spawns a sleeper and sets `waiting`. -/
def armSleeper (cfg : QConfig) (s : QState) : QState :=
  if !s.waiting && decide (s.inflight < cfg.maxInFlight) && !s.queue.isEmpty then
    { s with waiting := true }
  else s

/-- One full coordinator step: handle the event, then arm a sleeper if
necessary. -/
def qstep (cfg : QConfig) (s : QState) (e : QEvent) : QState × List (String × Bool) :=
  let r := handleEvent cfg s e
  (armSleeper cfg r.1, r.2)

/-- Run the coordinator over a trace of events, collecting every
dispatched reconciliation in order. -/
def runQ (cfg : QConfig) (s : QState) : List QEvent → QState × List (String × Bool)
  | [] => (s, [])
  | e :: es =>
    let r := qstep cfg s e
    let r2 := runQ cfg r.1 es
    (r2.1, r.2 ++ r2.2)

/-- Environment assumption on a trace: a `finished` signal can only come
from a worker that is actually in flight. -/
def ValidEvent (s : QState) : QEvent → Prop
  | .finished => 0 < s.inflight
  | _ => True

/-- States the coordinator can reach from startup under valid events. -/
inductive QReachable (cfg : QConfig) : QState → Prop
  | init : QReachable cfg initQ
  | next {s : QState} {e : QEvent} : QReachable cfg s → ValidEvent s e →
      QReachable cfg (qstep cfg s e).1

/-- Wall-clock time carried by an event (0 for the timeless channels). -/
def evTime : QEvent → Int
  | .ingress _ t => t
  | .timeout t => t
  | .finished => 0
  | .quit => 0

/-- The (time, push) pairs of the ingress events of a trace, in order. -/
def ingressList : List QEvent → List (Int × Bool)
  | [] => []
  | .ingress fn t :: es => (t, fn.push) :: ingressList es
  | _ :: es => ingressList es

/-! ## Request signing (`SignRequest`, `urlEncode` in s3.go)

HMAC-SHA1 and Base64 live in Go's crypto libraries, outside this
repository; the composite `Base64(HMAC-SHA1(secret, msg))` is therefore a
function parameter of the model.  Header strings here are ASCII, so Go's
byte-wise escaping coincides with the char-wise model. -/

/-- A request as `SignRequest` sees it: method, `URL.Path`, and a header
map (total function; absent headers read as `""`, matching Go's
`Header.Get`). -/
structure HttpRequest where
  method : String
  urlPath : String
  headers : String → String

/-- Set one header (`req.Header.Set`). -/
def setHeader (r : HttpRequest) (k v : String) : HttpRequest :=
  { r with headers := fun k2 => if k2 == k then v else r.headers k2 }

/-- Constant `AWS_HEADERS`: the in-order list of amz headers included in
the signature. -/
def AWS_HEADERS : List String :=
  ["X-Amz-Acl", "X-Amz-Copy-Source", "X-Amz-Meta-Gid", "X-Amz-Meta-Mode",
   "X-Amz-Meta-Mtime", "X-Amz-Meta-Uid", "X-Amz-Metadata-Directive"]

/-- Hex digit for percent-encoding ('0'-'9', 'A'-'F'). -/
def urlHexDigit (n : Nat) : Char :=
  if n < 10 then Char.ofNat (48 + n) else Char.ofNat (55 + n)

/-- Characters Go's 2011 `http.URLEscape` leaves unescaped:
alphanumerics and `-_.!~*'()`. -/
def urlUnescapedChar (c : Char) : Bool :=
  c.isAlphanum || c == '-' || c == '_' || c == '.' || c == '!' ||
    c == '~' || c == '*' || c.toNat == 39 || c == '(' || c == ')'

/-- Escape one character the way `http.URLEscape` does: keep unreserved
characters, turn space into `+`, percent-encode the rest. -/
def urlEscapeChar (c : Char) : String :=
  if urlUnescapedChar c then String.mk [c]
  else if c == ' ' then "+"
  else String.mk ['%', urlHexDigit (c.toNat / 16 % 16), urlHexDigit (c.toNat % 16)]

/-- Model of `http.URLEscape` (char-wise; all strings signed here are
ASCII). -/
def URLEscape (s : String) : String := String.join (s.data.map urlEscapeChar)

/-- Function `urlEncode` from s3.go: percent-encode, then put the slashes
back (`strings.Replace(http.URLEscape(path), "%2F", "/", -1)`). -/
def urlEncode (path : String) : String := (URLEscape path).replace "%2F" "/"

/-- The `msg` accumulated by `SignRequest`: start from the four standard
lines, append one `lower(header):value` line per present amz header in
`AWS_HEADERS` order, finish with the canonical resource. -/
def stringToSign (bucket : String) (req : HttpRequest) : String :=
  (AWS_HEADERS.foldl
    (fun acc k =>
      if req.headers k ≠ "" then acc ++ (k.toLower ++ ":" ++ req.headers k ++ "\n")
      else acc)
    (req.method ++ "\n"
      ++ (req.headers "Content-MD5" ++ "\n"
      ++ (req.headers "Content-Type" ++ "\n"
      ++ (req.headers "Date" ++ "\n")))))
  ++ urlEncode ("/" ++ bucket ++ req.urlPath)

/-- Function `SignRequest`: build the string-to-sign, then attach
`Authorization: AWS <key>:<sig>` where `<sig> = Base64(HMAC-SHA1(secret,
msg))` is computed by the `hmacSha1Base64` collaborator. -/
def SignRequest (hmacSha1Base64 : String → String → String)
    (key secret bucket : String) (req : HttpRequest) : HttpRequest :=
  setHeader req "Authorization"
    ("AWS " ++ key ++ ":" ++ hmacSha1Base64 secret (stringToSign bucket req))

/-- One `lower(header):value\n` line of the string-to-sign, empty when
the header is absent — the specification's description of a signed amz
header. -/
def amzHeaderLine (req : HttpRequest) (k : String) : String :=
  if req.headers k = "" then "" else k.toLower ++ ":" ++ req.headers k ++ "\n"

/-- The string-to-sign exactly as the specification words it: METHOD,
Content-MD5, Content-Type, Date each followed by a newline, then the
seven amz headers in the fixed listed order, then the canonical resource
`/bucket` plus the URL-encoded path with slashes preserved. -/
def specStringToSign (bucket : String) (req : HttpRequest) : String :=
  req.method ++ "\n"
    ++ req.headers "Content-MD5" ++ "\n"
    ++ req.headers "Content-Type" ++ "\n"
    ++ req.headers "Date" ++ "\n"
    ++ amzHeaderLine req "X-Amz-Acl"
    ++ amzHeaderLine req "X-Amz-Copy-Source"
    ++ amzHeaderLine req "X-Amz-Meta-Gid"
    ++ amzHeaderLine req "X-Amz-Meta-Mode"
    ++ amzHeaderLine req "X-Amz-Meta-Mtime"
    ++ amzHeaderLine req "X-Amz-Meta-Uid"
    ++ amzHeaderLine req "X-Amz-Metadata-Directive"
    ++ urlEncode ("/" ++ bucket ++ req.urlPath)

/-! ## Decimal and octal formatting / scanning (the fmt verbs used)

The metadata protocol uses `Sprintf` with `%d`, `%09d`, `0%o`, `%s` and
`Sscanf` with `%d`, `%d.%d`, `0%o`, `%d (%s)`.  We model these over
`List Char`. -/

/-- Digit character for a value below 10. -/
def digitChar (n : Nat) : Char := Char.ofNat (48 + n)

/-- Structural worker for `natDigits`; the fuel only bounds the
recursion depth and never runs out when `fuel ≥ n` and `b ≥ 2`. -/
def natDigitsAux (b : Nat) : Nat → Nat → List Char
  | 0, n => [digitChar n]
  | fuel + 1, n =>
    if n < b then [digitChar n]
    else natDigitsAux b fuel (n / b) ++ [digitChar (n % b)]

/-- Base-`b` digits of `n`, most significant first (`b` is 8 or 10
here).  Mirrors `Sprintf("%d"/"%o")` for a nonnegative value. -/
def natDigits (b n : Nat) : List Char :=
  if b ≤ 1 then ['0'] else natDigitsAux b n n

/-- Whether `c` is a digit of base `b ≤ 10`. -/
def isDigitB (b : Nat) (c : Char) : Bool := 48 ≤ c.toNat && c.toNat < 48 + b

/-- Maximal-munch digit scan with accumulator (the core of the `%d`/`%o`
verbs); returns the value and the unconsumed input. -/
def digitsAcc (b : Nat) : Nat → List Char → Nat × List Char
  | acc, [] => (acc, [])
  | acc, c :: cs =>
    if isDigitB b c then digitsAcc b (acc * b + (c.toNat - 48)) cs else (acc, c :: cs)

/-- Unsigned scan: fails unless the input starts with a digit. -/
def scanNat (b : Nat) : List Char → Option (Nat × List Char)
  | [] => none
  | c :: cs => if isDigitB b c then some (digitsAcc b 0 (c :: cs)) else none

/-- Signed scan (`%d`): optional `-`/`+`, then digits. -/
def scanInt (b : Nat) (cs : List Char) : Option (Int × List Char) :=
  match cs with
  | [] => none
  | c :: rest =>
    if c == '-' then (scanNat b rest).map (fun r => (-(r.1 : Int), r.2))
    else if c == '+' then (scanNat b rest).map (fun r => ((r.1 : Int), r.2))
    else (scanNat b (c :: rest)).map (fun r => ((r.1 : Int), r.2))

/-- Model of `Sprintf("%d", n)` for an `int64`. -/
def intRepr (n : Int) : List Char :=
  if n < 0 then '-' :: natDigits 10 n.natAbs else natDigits 10 n.toNat

/-- Zero-pad a digit run on the left to width `w`. -/
def padZeros (w : Nat) (ds : List Char) : List Char :=
  List.replicate (w - ds.length) '0' ++ ds

/-- Model of `Sprintf("%09d", n)`: total width 9, the sign included. -/
def pad9 (n : Int) : List Char :=
  if n < 0 then '-' :: padZeros 8 (natDigits 10 n.natAbs)
  else padZeros 9 (natDigits 10 n.toNat)

/-- Go's truncating integer division (`/` on int64), for `b > 0`. -/
def goDiv (a b : Int) : Int :=
  if 0 ≤ a then ((a.natAbs / b.natAbs : Nat) : Int) else -((a.natAbs / b.natAbs : Nat) : Int)

/-- Go's remainder (`%` on int64), sign of the dividend, for `b > 0`. -/
def goMod (a b : Int) : Int :=
  if 0 ≤ a then ((a.natAbs % b.natAbs : Nat) : Int) else -((a.natAbs % b.natAbs : Nat) : Int)

/-! ## Metadata header protocol (`SetRequestMetaData` / `GetResponseMetaData`) -/

/-- The header set the metadata protocol writes and reads.  An absent
header is the empty list (Go's `Header.Get` returns `""`). -/
structure MetaHeaders where
  amzAcl : List Char
  amzUid : List Char
  amzGid : List Char
  amzMode : List Char
  amzMtime : List Char
  contentType : List Char
  lastModified : List Char
  contentLength : List Char
  deriving DecidableEq, Repr

/-- The `X-Amz-Meta-Uid` header: `"<n>"`, or `"<n> (<name>)"` when
`user.LookupId` resolves the uid. -/
def uidHeader (lookupId : Int → Option String) (uid : Int) : List Char :=
  match lookupId uid with
  | none => intRepr uid
  | some name => intRepr uid ++ (' ' :: '(' :: (name.data ++ [')']))

/-- The `X-Amz-Meta-Mtime` header: seconds (Go truncating division),
`.%09d` nanoseconds when nonzero, then the localized date in
parentheses.  `dateStr` is the `time.SecondsToLocalTime(sec).String()`
collaborator result. -/
def mtimeHeader (dateStr : String) (m : Int) : List Char :=
  let sec := goDiv m 1000000000
  let ns := goMod m 1000000000
  if ns = 0 then intRepr sec ++ (' ' :: '(' :: (dateStr.data ++ [')']))
  else intRepr sec ++ ('.' :: (pad9 ns ++ (' ' :: '(' :: (dateStr.data ++ [')']))))

/-- Extension after the last dot of a file name, when the dot exists and
is not the final character (`strings.LastIndex` logic). -/
def lastDotExt (cs : List Char) : Option (List Char) :=
  if cs.contains '.' then
    let ext := (cs.reverse.takeWhile (fun c => c != '.')).reverse
    if ext.isEmpty then none else some ext
  else none

/-- Content-Type selection: directory and symlink sentinel types, else
MIME table lookup on the final extension with the octet-stream
fallback. -/
def contentTypeFor (mimeTypes : List (String × String)) (name : String)
    (info : FileInfo) : List Char :=
  if info.isDirectory then "inode/directory".data
  else if info.isSymlink then "inode/symlink".data
  else
    match lastDotExt name.data with
    | some ext =>
      match mimeTypes.find? (fun kv => kv.1.data == ext) with
      | some kv => kv.2.data
      | none => "application/octet-stream".data
    | none => "application/octet-stream".data

/-- Function `SetRequestMetaData`: the headers written for an upload or
copy.  `lookupId` is the `os/user` collaborator; `name` is `info.Name`
(used only for the MIME lookup).  `Content-Length` is not written here
(it is the request's body length), so it is left absent. -/
def SetRequestMetaData (lookupId : Int → Option String)
    (mimeTypes : List (String × String)) (dateStr : String) (name : String)
    (info : FileInfo) : MetaHeaders where
  amzAcl := if info.permission &&& s_iroth ≠ 0 then "public-read".data else "private".data
  amzUid := uidHeader lookupId info.uid
  amzGid := intRepr info.gid
  amzMode := '0' :: natDigits 8 info.mode
  amzMtime := mtimeHeader dateStr info.mtimeNs
  contentType := contentTypeFor mimeTypes name info
  lastModified := []
  contentLength := []

/-- Parse of `X-Amz-Meta-Uid` (`Sscanf(line, "%d (%s)", ...)`): on a
2-item scan the symbolic name is preferred when `user.Lookup` resolves
it (note the `%s` token swallows the closing parenthesis), else the
numeric uid; an unparseable or absent line gives 0. -/
def parseUidLine (lookupName : String → Option Int) (line : List Char) : Int :=
  if line.isEmpty then 0
  else
    match scanInt 10 line with
    | none => 0
    | some (uid, rest) =>
      match rest.dropWhile (fun c => c == ' ') with
      | [] => uid
      | c :: r2 =>
        if c == '(' then
          let tok := (r2.dropWhile (fun c2 => c2 == ' ')).takeWhile (fun c2 => c2 != ' ')
          if tok.isEmpty then uid
          else
            match lookupName (String.mk tok) with
            | some u => u
            | none => uid
        else uid

/-- Parse of `X-Amz-Meta-Gid` (`Sscanf(line, "%d", ...)`). -/
def parseGidLine (line : List Char) : Int :=
  if line.isEmpty then 0
  else
    match scanInt 10 line with
    | some r => r.1
    | none => 0

/-- Decimal fallback of the mode parse (`Sscanf(line, "%d", &mode)` into
a uint32). -/
def modeDec (line : List Char) : Nat :=
  match scanNat 10 line with
  | some r => r.1
  | none => 0

/-- Parse of `X-Amz-Meta-Mode`: octal `0%o` first, then decimal, then 0. -/
def parseModeLine (line : List Char) : Nat :=
  if line.isEmpty then 0
  else
    match line with
    | [] => 0
    | c :: rest =>
      if c == '0' then
        match scanNat 8 rest with
        | some r => r.1
        | none => modeDec line
      else modeDec line

/-- Mode synthesis when the parsed mode has no file-type bits: infer from
Content-Type. -/
def inferMode (mode : Nat) (ctype : List Char) : Nat :=
  if mode &&& s_ifmt == 0 then
    if ctype == "inode/directory".data then 0o755 ||| s_ifdir
    else if ctype == "application/x-directory".data then 0o755 ||| s_ifdir
    else if ctype == "inode/symlink".data then 0o777 ||| s_iflnk
    else 0o644 ||| s_ifreg
  else mode

/-- The `Sscanf(line, "%d.%d", &sec, &ns)` attempt: both items must
scan. -/
def scanSecNs (line : List Char) : Option Int :=
  match scanInt 10 line with
  | some (sec, rest) =>
    match rest with
    | c :: r2 =>
      if c == '.' then
        match scanInt 10 r2 with
        | some (ns, _) => some (sec * 1000000000 + ns)
        | none => none
      else none
    | [] => none
  | none => none

/-- Parse of `X-Amz-Meta-Mtime`: `%d.%d`, else `%d`, else the
`Last-Modified` fallback (`lmFallback` is its RFC1123 parse in seconds),
else the current wall time `nowNs`. -/
def parseMtimeLine (line : List Char) (lmFallback : Option Int) (nowNs : Int) : Int :=
  let fb := match lmFallback with
    | some t => t * 1000000000
    | none => nowNs
  if line.isEmpty then fb
  else
    match scanSecNs line with
    | some v => v
    | none =>
      match scanInt 10 line with
      | some (sec, _) => sec * 1000000000
      | none => fb

/-- Function `GetResponseMetaData`: rebuild a `FileInfo` from the header
set.  `lookupName` is the `user.Lookup` collaborator, `size0` the size
field of the fresh `os.FileInfo` (0) kept when `Content-Length` is
absent. -/
def GetResponseMetaData (lookupName : String → Option Int) (lmFallback : Option Int)
    (nowNs : Int) (h : MetaHeaders) (size0 : Int) : FileInfo where
  mode := inferMode (parseModeLine h.amzMode) h.contentType
  uid := parseUidLine lookupName h.amzUid
  gid := parseGidLine h.amzGid
  size :=
    if h.contentLength.isEmpty then size0
    else
      match scanInt 10 h.contentLength with
      | some r => r.1
      | none => 0
  mtimeNs := parseMtimeLine h.amzMtime lmFallback nowNs

/-! ## Bucket-name validation (`parseBucket`, main startup code) -/

/-- Characters `parseBucket` allows: lowercase letters, digits, periods,
underscores, dashes. -/
def bucketCharOk (c : Char) : Bool :=
  c == '.' || c == '_' || c == '-' ||
    (97 ≤ c.toNat && c.toNat ≤ 122) || (48 ≤ c.toNat && c.toNat ≤ 57)

/-- Value in 0..255, the per-octet bound of the IPv4 test. -/
def inByteRange (a : Int) : Bool := decide (0 ≤ a) && decide (a ≤ 255)

/-- The width-limited verb `%3d`: scan a signed integer from at most the
first three characters. -/
def scan3d (cs : List Char) : Option (Int × List Char) :=
  match scanInt 10 (cs.take 3) with
  | some (v, restw) => some (v, restw ++ cs.drop 3)
  | none => none

/-- The `Sscanf(name+"!", "%3d.%3d.%3d.%3d%c", ...)` test of
`parseBucket` applied to `cs = name ++ "!"`: true when all five items
scan, the trailing character is the sentinel `!`, and all four values
lie in 0..255. -/
def scanIPv4 (cs : List Char) : Bool :=
  match scan3d cs with
  | none => false
  | some (a, r1) =>
    match r1 with
    | [] => false
    | c1 :: r1b =>
      if c1 == '.' then
        match scan3d r1b with
        | none => false
        | some (b, r2) =>
          match r2 with
          | [] => false
          | c2 :: r2b =>
            if c2 == '.' then
              match scan3d r2b with
              | none => false
              | some (c, r3) =>
                match r3 with
                | [] => false
                | c3 :: r3b =>
                  if c3 == '.' then
                    match scan3d r3b with
                    | none => false
                    | some (d, r4) =>
                      match r4 with
                      | e :: _ =>
                        e == '!' && inByteRange a && inByteRange b &&
                          inByteRange c && inByteRange d
                      | [] => false
                  else false
            else false
      else false

/-- The "must not be formatted as an IP address" test as implemented:
append the sentinel and run the scanf pattern. -/
def ipv4Go (name : List Char) : Bool := scanIPv4 (name ++ ['!'])

/-- Function `parseBucket`'s name validation: length 3..255, all
characters in `[a-z0-9._-]`, alphanumeric first character, and not
scanf-formatted as a dotted IPv4.  (Go measures the length in bytes and
checks the first byte; both coincide with the char model on the
all-ASCII names the character check admits, and every name containing a
non-ASCII character is rejected by both.) -/
def parseBucketValid (name : List Char) : Bool :=
  if name.length < 3 || 255 < name.length then false
  else if !(name.all bucketCharOk) then false
  else
    match name with
    | [] => false
    | c :: _ => (c.isAlpha || c.isDigit) && !(ipv4Go name)

/-! ## Spec-side bucket validation (the claim's wording) -/

/-- Nonempty all-digit field. -/
def specDigits (cs : List Char) : Bool := !cs.isEmpty && cs.all (fun c => c.isDigit)

/-- Numeric value of a digit run. -/
def digitsVal (cs : List Char) : Nat := cs.foldl (fun a c => a * 10 + (c.toNat - 48)) 0

/-- Split on `.` (every occurrence, fields may be empty). -/
def splitDots : List Char → List (List Char)
  | [] => [[]]
  | c :: rest =>
    if c == '.' then [] :: splitDots rest
    else
      match splitDots rest with
      | g :: gs => (c :: g) :: gs
      | [] => [[c]]

/-- Modelled from the spec: "four 0–255 integers separated by dots with
no trailing content" — four dot-separated nonempty digit fields, each of
value at most 255. -/
def specIPv4 (name : List Char) : Bool :=
  match splitDots name with
  | [a, b, c, d] =>
    specDigits a && specDigits b && specDigits c && specDigits d &&
      decide (digitsVal a ≤ 255) && decide (digitsVal b ≤ 255) &&
      decide (digitsVal c ≤ 255) && decide (digitsVal d ≤ 255)
  | _ => false

/-- Modelled from the spec: the claim's acceptance predicate — length
3..255, characters in `[a-z0-9._-]`, alphanumeric first character, not a
dotted IPv4. -/
def specBucketValid (name : List Char) : Bool :=
  decide (3 ≤ name.length) && decide (name.length ≤ 255) &&
    name.all bucketCharOk &&
    (match name with
     | [] => false
     | c :: _ => c.isAlpha || c.isDigit) &&
    !(specIPv4 name)

/-- One field as the scanf-based test actually accepts it: at most three
characters, an optional minus sign followed by at least one digit, with
a value in 0..255 (so `-0` and `-00` count as 0). -/
def fieldOk3 (cs : List Char) : Bool :=
  match cs with
  | [] => false
  | c :: ds =>
    if c == '-' then
      !ds.isEmpty && ds.length ≤ 2 && ds.all (fun c2 => c2.isDigit) && digitsVal ds == 0
    else
      (c :: ds).length ≤ 3 && (c :: ds).all (fun c2 => c2.isDigit) &&
        decide (digitsVal (c :: ds) ≤ 255)

/-- The amended IPv4 wording: four dot-separated fields, each of at most
three characters, an optional minus sign followed by digits, with value
0..255. -/
def amendedIPv4 (name : List Char) : Bool :=
  match splitDots name with
  | [a, b, c, d] => fieldOk3 a && fieldOk3 b && fieldOk3 c && fieldOk3 d
  | _ => false

/-- The amended acceptance predicate. -/
def amendedBucketValid (name : List Char) : Bool :=
  decide (3 ≤ name.length) && decide (name.length ≤ 255) &&
    name.all bucketCharOk &&
    (match name with
     | [] => false
     | c :: _ => c.isAlpha || c.isDigit) &&
    !(amendedIPv4 name)

/-! ## `StatRequest` ETag handling (s3.go) -/

/-- Outcome of `StatRequest`'s response processing. -/
inductive StatOutcome where
  /-- the request failed with a non-2xx, non-404 status. -/
  | wireError
  /-- a 404: treated as success with no server info. -/
  | notFound
  /-- the Go string slice `etag[1:33]` was out of range. -/
  | crash
  /-- success; the 32 hex digits stored as `ServerHashHex`. -/
  | ok (serverHashHex : String)
  deriving DecidableEq, Repr

/-- Go string slicing `s[i:j]`: defined only for `i ≤ j ≤ len(s)`,
otherwise a runtime panic (`none`). -/
def goSlice (s : String) (i j : Nat) : Option String :=
  if i ≤ j ∧ j ≤ s.length then some (String.mk ((s.data.drop i).take (j - i))) else none

/-- Function `StatRequest`, response-processing part: `SendRequest`
classifies the status (2xx success, 404 absent-but-no-error, otherwise
error); on success the server hash is `resp.Header.Get("Etag")[1:33]`. -/
def StatRequest (status : Nat) (etag : String) : StatOutcome :=
  if 200 ≤ status ∧ status ≤ 299 then
    match goSlice etag 1 33 with
    | some h => .ok h
    | none => .crash
  else if status == 404 then .notFound
  else .wireError

/-! ## Theorems -/

/-- Helper: push an append under a header-presence test. -/
theorem ite_append_line (c acc l : String) :
    (if c ≠ "" then acc ++ l else acc) = acc ++ (if c = "" then "" else l) := by
  by_cases h : c = "" <;> simp [h]

/-- Helper: the accumulated string-to-sign equals the specification's
explicit concatenation. -/
theorem stringToSign_eq_spec (bucket : String) (req : HttpRequest) :
    stringToSign bucket req = specStringToSign bucket req := by
  unfold stringToSign specStringToSign amzHeaderLine
  simp only [AWS_HEADERS, List.foldl_cons, List.foldl_nil]
  rw [ite_append_line, ite_append_line, ite_append_line, ite_append_line,
    ite_append_line, ite_append_line, ite_append_line]
  simp only [String.append_assoc]

/-- C6.  Request signing: for every request, `SignRequest` builds the
string-to-sign as METHOD, Content-MD5, Content-Type and Date each
followed by a newline, then `lower(header):value` lines for each present
amz header in exactly the fixed order X-Amz-Acl, X-Amz-Copy-Source,
X-Amz-Meta-Gid, X-Amz-Meta-Mode, X-Amz-Meta-Mtime, X-Amz-Meta-Uid,
X-Amz-Metadata-Directive, then the canonical resource `/bucket` plus the
URL-encoded path with slashes preserved; it sets Authorization to
`AWS <key>:` followed by Base64(HMAC-SHA1(secret, string)); being a pure
function of these inputs, the result is deterministic. -/
theorem signRequest_builds_spec_string (hmac : String → String → String)
    (key secret bucket : String) (req : HttpRequest) :
    (SignRequest hmac key secret bucket req).headers "Authorization" =
      "AWS " ++ key ++ ":" ++ hmac secret (specStringToSign bucket req) := by
  rw [← stringToSign_eq_spec]
  simp [SignRequest, setHeader]

/-- C10.  `StatRequest` ETag precondition: on every 2xx HEAD response the
server hash is set to exactly characters 1 through 32 of the ETag
header; the slice is well-defined only when the ETag has at least 33
characters, and for a shorter (or absent, i.e. empty) ETag the index is
out of range and the operation cannot complete normally. -/
theorem statRequest_etag_slice (status : Nat) (etag : String)
    (h2xx : 200 ≤ status ∧ status ≤ 299) :
    (33 ≤ etag.length →
        StatRequest status etag = .ok (String.mk ((etag.data.drop 1).take 32))) ∧
      (etag.length < 33 → StatRequest status etag = .crash) := by
  unfold StatRequest goSlice
  rw [if_pos h2xx]
  constructor <;> intro h
  · rw [if_pos ⟨by omega, h⟩]
  · rw [if_neg (by omega)]

/-- C10 witness: a 200 response with a quoted 32-hex-digit ETag yields
the inner hash; a 200 response with a short ETag crashes. -/
theorem statRequest_etag_slice_witness :
    (200 ≤ 200 ∧ 200 ≤ 299) ∧
      StatRequest 200 "\"d41d8cd98f00b204e9800998ecf8427e\"" =
        .ok "d41d8cd98f00b204e9800998ecf8427e" ∧
      StatRequest 200 "" = .crash := by
  refine ⟨⟨by omega, by omega⟩, ?_, ?_⟩
  · have h := (statRequest_etag_slice 200 "\"d41d8cd98f00b204e9800998ecf8427e\""
      ⟨by omega, by omega⟩).1 (by decide)
    rw [h]; decide
  · exact (statRequest_etag_slice 200 "" ⟨by omega, by omega⟩).2 (by decide)

/-! ## Digit-scan lemmas (shared by the metadata and bucket proofs) -/

/-- A head that stops a digit scan. -/
def stopsScan (b : Nat) : List Char → Bool
  | [] => true
  | c :: _ => !(isDigitB b c)

/-- Accumulator step of every decimal/octal value in this file. -/
def digitStep (b : Nat) (a : Nat) (c : Char) : Nat := a * b + (c.toNat - 48)

/-- Helper: the code point of a digit character. -/
theorem digitChar_toNat (n : Nat) (h : n < 10) : (digitChar n).toNat = 48 + n := by
  interval_cases n <;> decide

/-- Helper: `digitsAcc` consumes exactly an all-digit prefix, folding it
onto the accumulator. -/
theorem digitsAcc_run (b : Nat) (ds rest : List Char) (a : Nat)
    (hds : ds.all (isDigitB b)) (hrest : stopsScan b rest = true) :
    digitsAcc b a (ds ++ rest) = (ds.foldl (digitStep b) a, rest) := by
  induction ds generalizing a with
  | nil =>
    cases rest with
    | nil => simp [digitsAcc]
    | cons c cs =>
      simp only [stopsScan, Bool.not_eq_true'] at hrest
      simp [digitsAcc, hrest]
  | cons d ds ih =>
    simp only [List.all_cons, Bool.and_eq_true] at hds
    simp [digitsAcc, hds.1, ih _ hds.2, digitStep]

/-- Helper: sufficient fuel is irrelevant to `natDigitsAux`. -/
theorem natDigitsAux_fuel (b : Nat) (hb : 2 ≤ b) :
    ∀ fuel1 fuel2 n, n ≤ fuel1 → n ≤ fuel2 →
      natDigitsAux b fuel1 n = natDigitsAux b fuel2 n := by
  intro fuel1
  induction fuel1 with
  | zero =>
    intro fuel2 n h1 h2
    interval_cases n
    cases fuel2 with
    | zero => rfl
    | succ f => simp [natDigitsAux, show (0 : Nat) < b by omega]
  | succ f1 ih =>
    intro fuel2 n h1 h2
    cases fuel2 with
    | zero =>
      interval_cases n
      simp [natDigitsAux, show (0 : Nat) < b by omega]
    | succ f2 =>
      simp only [natDigitsAux]
      by_cases h : n < b
      · simp [h]
      · rw [if_neg h, if_neg h]
        have hlt : n / b < n := Nat.div_lt_self (by omega) (by omega)
        rw [ih f2 (n / b) (by omega) (by omega)]

/-- Helper: the recursive unfolding of `natDigits`. -/
theorem natDigits_unfold (b n : Nat) (hb : 2 ≤ b) :
    natDigits b n =
      if n < b then [digitChar n]
      else natDigits b (n / b) ++ [digitChar (n % b)] := by
  by_cases h : n < b
  · rw [if_pos h]
    unfold natDigits
    rw [if_neg (by omega)]
    cases n with
    | zero => rfl
    | succ k => simp [natDigitsAux, h]
  · rw [if_neg h]
    unfold natDigits
    rw [if_neg (by omega), if_neg (by omega)]
    cases n with
    | zero => omega
    | succ k =>
      simp only [natDigitsAux, if_neg h]
      have hlt : (k + 1) / b < k + 1 := Nat.div_lt_self (by omega) (by omega)
      rw [natDigitsAux_fuel b hb k ((k + 1) / b) ((k + 1) / b) (by omega) (by omega)]

/-- Helper: every character `natDigits` emits is a digit of its base. -/
theorem natDigits_all (b n : Nat) (hb : 2 ≤ b) (hb10 : b ≤ 10) :
    (natDigits b n).all (isDigitB b) = true := by
  induction n using Nat.strong_induction_on with
  | _ n ih =>
    rw [natDigits_unfold b n hb]
    by_cases h : n < b
    · rw [if_pos h]
      simp only [List.all_cons, List.all_nil, Bool.and_true]
      simp only [isDigitB, digitChar_toNat n (by omega), Bool.and_eq_true, decide_eq_true_eq]
      omega
    · rw [if_neg h]
      have hlt : n / b < n := Nat.div_lt_self (by omega) (by omega)
      have hmod : n % b < b := Nat.mod_lt _ (by omega)
      simp only [List.all_append, ih _ hlt, List.all_cons, List.all_nil, Bool.and_true,
        Bool.true_and]
      simp only [isDigitB, digitChar_toNat (n % b) (by omega), Bool.and_eq_true,
        decide_eq_true_eq]
      omega

/-- Helper: `natDigits` is never empty. -/
theorem natDigits_ne_nil (b n : Nat) : natDigits b n ≠ [] := by
  unfold natDigits
  by_cases h1 : b ≤ 1
  · simp [h1]
  · rw [if_neg h1]
    cases n with
    | zero => simp [natDigitsAux]
    | succ k =>
      simp only [natDigitsAux]
      by_cases h : k + 1 < b
      · simp [h]
      · rw [if_neg h]
        simp

/-- Helper: folding the digits of `n` onto accumulator `a` gives
`a * b^width + n`. -/
theorem natDigits_foldl (b n : Nat) (a : Nat) (hb : 2 ≤ b) (hb10 : b ≤ 10) :
    (natDigits b n).foldl (digitStep b) a = a * b ^ (natDigits b n).length + n := by
  induction n using Nat.strong_induction_on generalizing a with
  | _ n ih =>
    rw [natDigits_unfold b n hb]
    by_cases h : n < b
    · rw [if_pos h]
      simp only [List.foldl_cons, List.foldl_nil, List.length_cons, List.length_nil,
        zero_add, pow_one, digitStep, digitChar_toNat n (by omega)]
      omega
    · rw [if_neg h]
      have hlt : n / b < n := Nat.div_lt_self (by omega) (by omega)
      rw [List.foldl_append, ih _ hlt a, List.foldl_cons, List.foldl_nil]
      simp only [digitStep, List.length_append, List.length_cons, List.length_nil,
        digitChar_toNat (n % b) (by
          have : n % b < b := Nat.mod_lt _ (by omega)
          omega)]
      rw [pow_succ]
      have hnm : b * (n / b) + n % b = n := Nat.div_add_mod n b
      have hmlt : n % b < b := Nat.mod_lt _ (by omega)
      ring_nf
      omega

/-- Helper: value of an all-digit run from a zero accumulator. -/
theorem digitsAcc_natDigits (b n : Nat) (rest : List Char) (hb : 2 ≤ b) (hb10 : b ≤ 10)
    (hrest : stopsScan b rest = true) :
    digitsAcc b 0 (natDigits b n ++ rest) = (n, rest) := by
  rw [digitsAcc_run b _ rest 0 (natDigits_all b n hb hb10) hrest,
    natDigits_foldl b n 0 hb hb10]
  simp

/-- Helper: `scanNat` round-trips `natDigits`. -/
theorem scanNat_natDigits (b n : Nat) (rest : List Char) (hb : 2 ≤ b) (hb10 : b ≤ 10)
    (hrest : stopsScan b rest = true) :
    scanNat b (natDigits b n ++ rest) = some (n, rest) := by
  have hall := natDigits_all b n hb hb10
  have hne := natDigits_ne_nil b n
  have hval := digitsAcc_natDigits b n rest hb hb10 hrest
  cases hd : natDigits b n with
  | nil => exact absurd hd hne
  | cons c cs =>
    rw [hd] at hall hval
    simp only [List.all_cons, Bool.and_eq_true] at hall
    show scanNat b (c :: (cs ++ rest)) = _
    simp only [scanNat, hall.1, if_true]
    simp only [List.cons_append] at hval
    rw [hval]

/-- Helper: a base-10 digit character is not a sign. -/
theorem digit_not_sign (c : Char) (hc : isDigitB 10 c = true) :
    (c == '-') = false ∧ (c == '+') = false := by
  constructor <;>
  · rw [beq_eq_false_iff_ne]
    intro h
    subst h
    exact absurd hc (by decide)

/-- Helper: `scanInt` round-trips `intRepr`. -/
theorem scanInt_intRepr (n : Int) (rest : List Char) (hrest : stopsScan 10 rest = true) :
    scanInt 10 (intRepr n ++ rest) = some (n, rest) := by
  unfold intRepr
  by_cases hn : n < 0
  · rw [if_pos hn]
    show scanInt 10 ('-' :: (natDigits 10 n.natAbs ++ rest)) = _
    simp only [scanInt]
    rw [if_pos (by rfl), scanNat_natDigits 10 _ rest (by omega) (by omega) hrest]
    simp only [Option.map_some']
    congr 2
    omega
  · rw [if_neg hn]
    cases hd : natDigits 10 n.toNat with
    | nil => exact absurd hd (natDigits_ne_nil _ _)
    | cons c cs =>
      have hall := natDigits_all 10 n.toNat (by omega) (by omega)
      have hval := scanNat_natDigits 10 n.toNat rest (by omega) (by omega) hrest
      rw [hd] at hall hval
      simp only [List.all_cons, Bool.and_eq_true] at hall
      have hsign := digit_not_sign c hall.1
      show scanInt 10 (c :: (cs ++ rest)) = _
      simp only [scanInt, hsign.1, hsign.2, if_false, Bool.false_eq_true]
      simp only [List.cons_append] at hval
      rw [hval]
      simp only [Option.map_some']
      congr 2
      omega

/-- Helper: `intRepr` is never empty. -/
theorem intRepr_ne_nil (n : Int) : intRepr n ≠ [] := by
  unfold intRepr
  by_cases hn : n < 0
  · simp [hn]
  · rw [if_neg hn]; exact natDigits_ne_nil _ _

/-- Helper: zeros fold to zero, so a zero-padded run has the value of
its digits. -/
theorem padZeros_foldl (w : Nat) (ds : List Char) (a : Nat) (hz : a = 0) :
    (padZeros w ds).foldl (digitStep 10) a = ds.foldl (digitStep 10) a := by
  unfold padZeros
  rw [List.foldl_append]
  congr 1
  subst hz
  induction (w - ds.length) with
  | zero => rfl
  | succ k ih => simpa [List.replicate_succ, digitStep] using ih

/-- Helper: a zero-padded digit run is all digits. -/
theorem padZeros_all (w : Nat) (ds : List Char) (hds : ds.all (isDigitB 10)) :
    (padZeros w ds).all (isDigitB 10) = true := by
  unfold padZeros
  simp only [List.all_append, hds, Bool.and_true]
  rw [List.all_eq_true]
  intro c hc
  rw [List.eq_of_mem_replicate hc]
  decide

/-- Helper: `padZeros` preserves nonemptiness. -/
theorem padZeros_ne_nil (w : Nat) (ds : List Char) (hds : ds ≠ []) :
    padZeros w ds ≠ [] := by
  unfold padZeros
  intro h
  rcases List.append_eq_nil.mp h with ⟨_, h2⟩
  exact hds h2

/-- Helper: `scanInt` reads back `pad9`. -/
theorem scanInt_pad9 (n : Int) (rest : List Char) (hrest : stopsScan 10 rest = true) :
    scanInt 10 (pad9 n ++ rest) = some (n, rest) := by
  unfold pad9
  by_cases hn : n < 0
  · rw [if_pos hn]
    show scanInt 10 ('-' :: (padZeros 8 (natDigits 10 n.natAbs) ++ rest)) = _
    simp only [scanInt]
    rw [if_pos (by rfl)]
    have hall := padZeros_all 8 _ (natDigits_all 10 n.natAbs (by omega) (by omega))
    have hne := padZeros_ne_nil 8 _ (natDigits_ne_nil 10 n.natAbs)
    cases hd : padZeros 8 (natDigits 10 n.natAbs) with
    | nil => exact absurd hd hne
    | cons c cs =>
      rw [hd] at hall
      simp only [List.all_cons, Bool.and_eq_true] at hall
      have : digitsAcc 10 0 (padZeros 8 (natDigits 10 n.natAbs) ++ rest) =
          ((natDigits 10 n.natAbs).foldl (digitStep 10) 0, rest) := by
        rw [digitsAcc_run 10 _ rest 0 (padZeros_all 8 _
          (natDigits_all 10 n.natAbs (by omega) (by omega))) hrest]
        rw [padZeros_foldl 8 _ 0 rfl]
      rw [natDigits_foldl 10 n.natAbs 0 (by omega) (by omega)] at this
      simp only [zero_mul, zero_add] at this
      rw [hd] at this
      simp only [List.cons_append] at this
      show (scanNat 10 (c :: (cs ++ rest))).map _ = _
      simp only [scanNat, hall.1, if_true, this]
      simp only [Option.map_some']
      congr 2
      omega
  · rw [if_neg hn]
    have hall := padZeros_all 9 _ (natDigits_all 10 n.toNat (by omega) (by omega))
    have hne := padZeros_ne_nil 9 _ (natDigits_ne_nil 10 n.toNat)
    cases hd : padZeros 9 (natDigits 10 n.toNat) with
    | nil => exact absurd hd hne
    | cons c cs =>
      rw [hd] at hall
      simp only [List.all_cons, Bool.and_eq_true] at hall
      have hsign := digit_not_sign c hall.1
      have : digitsAcc 10 0 (padZeros 9 (natDigits 10 n.toNat) ++ rest) =
          ((natDigits 10 n.toNat).foldl (digitStep 10) 0, rest) := by
        rw [digitsAcc_run 10 _ rest 0 (padZeros_all 9 _
          (natDigits_all 10 n.toNat (by omega) (by omega))) hrest]
        rw [padZeros_foldl 9 _ 0 rfl]
      rw [natDigits_foldl 10 n.toNat 0 (by omega) (by omega)] at this
      simp only [zero_mul, zero_add] at this
      rw [hd] at this
      simp only [List.cons_append] at this
      show scanInt 10 (c :: (cs ++ rest)) = _
      simp only [scanInt, hsign.1, hsign.2, if_false, Bool.false_eq_true]
      simp only [scanNat, hall.1, if_true, this]
      simp only [Option.map_some']
      congr 2
      omega

/-- Helper: Go division/remainder recombine to the dividend (for a
positive divisor). -/
theorem goDiv_add_goMod (a b : Int) (hb : 0 < b) :
    goDiv a b * b + goMod a b = a := by
  obtain ⟨k, rfl⟩ : ∃ k : Nat, b = (k : Int) := ⟨b.toNat, by omega⟩
  by_cases ha : 0 ≤ a
  · obtain ⟨m, rfl⟩ : ∃ m : Nat, a = (m : Int) := ⟨a.toNat, by omega⟩
    unfold goDiv goMod
    rw [if_pos ha, if_pos ha]
    simp only [Int.natAbs_ofNat]
    norm_cast
    rw [Nat.mul_comm]
    exact Nat.div_add_mod m k
  · obtain ⟨m, hm⟩ : ∃ m : Nat, a = -(m : Int) := ⟨a.natAbs, by omega⟩
    subst hm
    unfold goDiv goMod
    rw [if_neg ha, if_neg ha]
    have h1 : (-(m : Int)).natAbs = m := by omega
    rw [h1]
    simp only [Int.natAbs_ofNat]
    have h2 : ((m / k : Nat) : Int) * (k : Int) + ((m % k : Nat) : Int) = ((m : Nat) : Int) := by
      norm_cast
      rw [Nat.mul_comm]
      exact Nat.div_add_mod m k
    linear_combination -h2

/-- Helper: the cons equation of `stopsScan`. -/
theorem stopsScan_cons (b : Nat) (c : Char) (l : List Char) :
    stopsScan b (c :: l) = !(isDigitB b c) := rfl

/-- Helper: a list with a nonempty prefix is nonempty. -/
theorem isEmpty_false_of_ne_nil_append (l1 l2 : List Char) (h : l1 ≠ []) :
    (l1 ++ l2).isEmpty = false := by
  cases l1 with
  | nil => exact absurd rfl h
  | cons c cs => rfl

/-- Helper: Boolean emptiness of a nonempty list. -/
theorem isEmpty_false_of_ne_nil (l1 : List Char) (h : l1 ≠ []) : l1.isEmpty = false := by
  cases l1 with
  | nil => exact absurd rfl h
  | cons c cs => rfl

/-- Helper: `scanInt` at end of input. -/
theorem scanInt_intRepr_nil (n : Int) : scanInt 10 (intRepr n) = some (n, []) := by
  have h := scanInt_intRepr n [] rfl
  simpa using h

/-- Helper: `scanNat` at end of input. -/
theorem scanNat_natDigits_nil (b n : Nat) (hb : 2 ≤ b) (hb10 : b ≤ 10) :
    scanNat b (natDigits b n) = some (n, []) := by
  have h := scanNat_natDigits b n [] hb hb10 rfl
  simpa using h

/-- The token `user.Lookup` receives when the uid header carried a
symbolic name: the `%s` scan of `<name>)` (stops at the first space,
swallows the parenthesis). -/
def uidScanToken (nm : String) : String :=
  String.mk (((nm.data ++ [')']).dropWhile (fun c2 => c2 == ' ')).takeWhile
    (fun c2 => c2 != ' '))

/-- Helper: the uid header round-trips to the numeric uid whenever the
mangled username token does not resolve to a local user. -/
theorem parseUid_uidHeader (lookupId : Int → Option String)
    (lookupName : String → Option Int) (uid : Int)
    (huid : ∀ nm, lookupId uid = some nm → lookupName (uidScanToken nm) = none) :
    parseUidLine lookupName (uidHeader lookupId uid) = uid := by
  unfold uidHeader
  cases hl : lookupId uid with
  | none =>
    simp only [parseUidLine, isEmpty_false_of_ne_nil _ (intRepr_ne_nil uid),
      Bool.false_eq_true, if_false, scanInt_intRepr_nil, List.dropWhile_nil]
  | some nm =>
    have hs := scanInt_intRepr uid (' ' :: '(' :: (nm.data ++ [')']))
      (by rw [stopsScan_cons]; decide)
    have hdw : ((' ' :: '(' :: (nm.data ++ [')'])).dropWhile (fun c => c == ' '))
        = '(' :: (nm.data ++ [')']) := by
      simp only [List.dropWhile_cons]
      simp
    unfold parseUidLine
    rw [isEmpty_false_of_ne_nil_append _ _ (intRepr_ne_nil uid), hs]
    simp only [Bool.false_eq_true, if_false]
    rw [hdw]
    simp only []
    rw [if_pos (by rfl)]
    by_cases ht : (((nm.data ++ [')']).dropWhile (fun c2 => c2 == ' ')).takeWhile
        (fun c2 => c2 != ' ')).isEmpty = true
    · rw [if_pos ht]
    · rw [if_neg ht]
      have hn := huid nm hl
      unfold uidScanToken at hn
      rw [hn]

/-- Helper: the gid header round-trips. -/
theorem parseGid_intRepr (gid : Int) : parseGidLine (intRepr gid) = gid := by
  simp only [parseGidLine, isEmpty_false_of_ne_nil _ (intRepr_ne_nil gid),
    Bool.false_eq_true, if_false, scanInt_intRepr_nil]

/-- Helper: the octal mode header round-trips. -/
theorem parseMode_modeHeader (mode : Nat) : parseModeLine ('0' :: natDigits 8 mode) = mode := by
  have hne : (('0' :: natDigits 8 mode).isEmpty) = false := rfl
  simp only [parseModeLine, hne, Bool.false_eq_true, if_false,
    show (('0' == '0') = true) from rfl, if_true,
    scanNat_natDigits_nil 8 mode (by omega) (by omega)]

/-- Helper: the mtime header round-trips for every int64 nanosecond
timestamp. -/
theorem parseMtime_mtimeHeader (dateStr : String) (lm : Option Int) (nowNs m : Int) :
    parseMtimeLine (mtimeHeader dateStr m) lm nowNs = m := by
  unfold mtimeHeader
  have hid := goDiv_add_goMod m 1000000000 (by norm_num)
  by_cases hns : goMod m 1000000000 = 0
  · rw [if_pos hns]
    have hs := scanInt_intRepr (goDiv m 1000000000) (' ' :: '(' :: (dateStr.data ++ [')']))
      (by rw [stopsScan_cons]; decide)
    unfold parseMtimeLine scanSecNs
    rw [isEmpty_false_of_ne_nil_append _ _ (intRepr_ne_nil _), hs]
    simp only [Bool.false_eq_true, if_false]
    simp only [show ((' ' == '.') = true) = False by simp, if_false]
    omega
  · rw [if_neg hns]
    have hs := scanInt_intRepr (goDiv m 1000000000)
      ('.' :: (pad9 (goMod m 1000000000) ++ (' ' :: '(' :: (dateStr.data ++ [')']))))
      (by rw [stopsScan_cons]; decide)
    have hp := scanInt_pad9 (goMod m 1000000000) (' ' :: '(' :: (dateStr.data ++ [')']))
      (by rw [stopsScan_cons]; decide)
    unfold parseMtimeLine scanSecNs
    rw [isEmpty_false_of_ne_nil_append _ _ (intRepr_ne_nil _), hs]
    simp only [Bool.false_eq_true, if_false]
    simp only [show (('.' == '.') = true) from rfl, if_true, hp]
    omega

/-- C7 counterexample: the claim fails as stated, "for every FileInfo".
For a mode without file-type bits — here `0644` — the write side emits
`X-Amz-Meta-Mode: 0644`, and the parse side, seeing `mode & 0170000 ==
0`, synthesizes the type from Content-Type and returns `0100644`, not
`0644`. -/
theorem metadata_roundtrip_counterexample :
    (GetResponseMetaData (fun _ => none) none 0
        (SetRequestMetaData (fun _ => none) [] "d" "x" ⟨0o644, 0, 0, 0, 0⟩) 0).mode
      = 0o100644 ∧ (0o100644 : Nat) ≠ 0o644 := by
  constructor
  · decide
  · decide

/-- C7 (amended).  Metadata header round-trip: for every `FileInfo`
whose mode carries file-type bits (`mode & 0170000 ≠ 0`), and in any
user database in which the parenthesized username token of the uid
header does not resolve to a local user, writing the headers with
`SetRequestMetaData` and parsing that same header set with
`GetResponseMetaData` yields identical uid, gid, mode (via the
`0<octal>` encoding) and mtime_ns (via the `<sec>.<nanos>` encoding,
seconds-only when the nanoseconds are zero). -/
theorem metadata_header_roundtrip (lookupId : Int → Option String)
    (lookupName : String → Option Int) (mimeTypes : List (String × String))
    (dateStr name : String) (lmFallback : Option Int) (nowNs : Int) (info : FileInfo)
    (hmode : info.mode &&& s_ifmt ≠ 0)
    (huid : ∀ nm, lookupId info.uid = some nm → lookupName (uidScanToken nm) = none) :
    (GetResponseMetaData lookupName lmFallback nowNs
        (SetRequestMetaData lookupId mimeTypes dateStr name info) 0).uid = info.uid ∧
      (GetResponseMetaData lookupName lmFallback nowNs
        (SetRequestMetaData lookupId mimeTypes dateStr name info) 0).gid = info.gid ∧
      (GetResponseMetaData lookupName lmFallback nowNs
        (SetRequestMetaData lookupId mimeTypes dateStr name info) 0).mode = info.mode ∧
      (GetResponseMetaData lookupName lmFallback nowNs
        (SetRequestMetaData lookupId mimeTypes dateStr name info) 0).mtimeNs
        = info.mtimeNs := by
  refine ⟨?_, ?_, ?_, ?_⟩
  · show parseUidLine lookupName (uidHeader lookupId info.uid) = info.uid
    exact parseUid_uidHeader lookupId lookupName info.uid huid
  · show parseGidLine (intRepr info.gid) = info.gid
    exact parseGid_intRepr info.gid
  · show inferMode (parseModeLine ('0' :: natDigits 8 info.mode))
      (contentTypeFor mimeTypes name info) = info.mode
    rw [parseMode_modeHeader]
    unfold inferMode
    rw [if_neg (by simpa using hmode)]
  · show parseMtimeLine (mtimeHeader dateStr info.mtimeNs) lmFallback nowNs = info.mtimeNs
    exact parseMtime_mtimeHeader dateStr lmFallback nowNs info.mtimeNs

/-- C7 witness: the amended round-trip at a concrete regular file with a
nonzero fractional mtime. -/
theorem metadata_header_roundtrip_witness :
    ((⟨0o100644, 1000, 50, 7, 1234567890123456789⟩ : FileInfo).mode &&& s_ifmt ≠ 0) ∧
      (GetResponseMetaData (fun _ => none) none 0
          (SetRequestMetaData (fun _ => none) [] "d" "a.txt"
            ⟨0o100644, 1000, 50, 7, 1234567890123456789⟩) 0).uid = 1000 ∧
      (GetResponseMetaData (fun _ => none) none 0
          (SetRequestMetaData (fun _ => none) [] "d" "a.txt"
            ⟨0o100644, 1000, 50, 7, 1234567890123456789⟩) 0).mode = 0o100644 := by
  refine ⟨by decide, ?_⟩
  have h := metadata_header_roundtrip (fun _ => none) (fun _ => none) [] "d" "a.txt"
    none 0 ⟨0o100644, 1000, 50, 7, 1234567890123456789⟩ (by decide)
    (fun nm hl => Option.noConfusion hl)
  exact ⟨h.1, h.2.2.1⟩

/-! ## Bucket-validation lemmas -/

/-- Join dot-separated fields back together (the inverse of
`splitDots`). -/
def joinDots : List (List Char) → List Char
  | [] => []
  | [g] => g
  | g :: gs => g ++ '.' :: joinDots gs

/-- Helper: `splitDots` never returns an empty field list. -/
theorem splitDots_ne_nil (cs : List Char) : splitDots cs ≠ [] := by
  cases cs with
  | nil => simp [splitDots]
  | cons c rest =>
    simp only [splitDots]
    by_cases h : c == '.'
    · simp [h]
    · rw [if_neg h]
      cases splitDots rest with
      | nil => simp
      | cons g gs => simp

/-- Helper: prepending a dot-free run extends the first field. -/
theorem splitDots_append (f cs : List Char) (g : List Char) (gs : List (List Char))
    (hf : '.' ∉ f) (h : splitDots cs = g :: gs) :
    splitDots (f ++ cs) = (f ++ g) :: gs := by
  induction f with
  | nil => simpa using h
  | cons c f ih =>
    have hc : (c == '.') = false := by
      rw [beq_eq_false_iff_ne]
      intro hc
      exact hf (by simp [hc])
    have hm : '.' ∉ f := fun hm => hf (by simp [hm])
    show splitDots (c :: (f ++ cs)) = (c :: (f ++ g)) :: gs
    simp only [splitDots, hc, Bool.false_eq_true, if_false]
    rw [ih hm]

/-- Helper: a dot-free run is a single field. -/
theorem splitDots_dotfree (f : List Char) (hf : '.' ∉ f) : splitDots f = [f] := by
  have h := splitDots_append f [] [] [] hf (by rfl)
  simpa using h

/-- Helper: splitting then joining is the identity. -/
theorem joinDots_splitDots (cs : List Char) : joinDots (splitDots cs) = cs := by
  induction cs with
  | nil => rfl
  | cons c rest ih =>
    simp only [splitDots]
    by_cases h : c == '.'
    · rw [if_pos h]
      have hb : c = '.' := by simpa using h
      cases hr : splitDots rest with
      | nil => exact absurd hr (splitDots_ne_nil rest)
      | cons g gs =>
        rw [hr] at ih
        subst hb
        cases gs with
        | nil => simp [joinDots] at ih ⊢; exact ih
        | cons g2 gs2 => simp [joinDots] at ih ⊢; exact ih
    · rw [if_neg h]
      have hb : c ≠ '.' := by simpa using h
      cases hr : splitDots rest with
      | nil => exact absurd hr (splitDots_ne_nil rest)
      | cons g gs =>
        rw [hr] at ih
        cases gs with
        | nil => simp [joinDots] at ih ⊢; exact ih
        | cons g2 gs2 =>
          simp only [joinDots] at ih ⊢
          rw [List.cons_append, ih]

/-- Helper: the two digit tests agree at base 10. -/
theorem isDigitB_ten (c : Char) : isDigitB 10 c = c.isDigit := by
  rw [Bool.eq_iff_iff]
  simp only [isDigitB, Char.isDigit, Bool.and_eq_true, decide_eq_true_eq, Char.le_def,
    UInt32.le_def, BitVec.le_def, Char.toNat, UInt32.toNat]
  have h0 : (UInt32.toBitVec 48).toNat = 48 := rfl
  have h9 : (UInt32.toBitVec 57).toNat = 57 := rfl
  rw [h0, h9]
  omega

/-- Helper: `digitsVal` is the digit fold. -/
theorem digitsVal_eq (ds : List Char) : digitsVal ds = ds.foldl (digitStep 10) 0 := rfl

/-- Helper: `scanNat` on an explicit digit run with a stopper. -/
theorem scanNat_digits (ds rest : List Char) (hds : ds.all (isDigitB 10) = true)
    (hne : ds ≠ []) (hrest : stopsScan 10 rest = true) :
    scanNat 10 (ds ++ rest) = some (digitsVal ds, rest) := by
  cases ds with
  | nil => exact absurd rfl hne
  | cons c cs =>
    have hall := hds
    simp only [List.all_cons, Bool.and_eq_true] at hall
    have hpre := digitsAcc_run 10 (c :: cs) rest 0 hds hrest
    simp only [List.cons_append] at hpre
    show scanNat 10 (c :: (cs ++ rest)) = _
    simp only [scanNat, hall.1, if_true, hpre, digitsVal_eq]

/-- Helper: `scanInt` on an explicit digit run. -/
theorem scanInt_digits (ds rest : List Char) (hds : ds.all (isDigitB 10) = true)
    (hne : ds ≠ []) (hrest : stopsScan 10 rest = true) :
    scanInt 10 (ds ++ rest) = some ((digitsVal ds : Int), rest) := by
  cases ds with
  | nil => exact absurd rfl hne
  | cons c cs =>
    have hall := hds
    simp only [List.all_cons, Bool.and_eq_true] at hall
    have hsign := digit_not_sign c hall.1
    have hn := scanNat_digits (c :: cs) rest hds hne hrest
    simp only [List.cons_append] at hn
    show scanInt 10 (c :: (cs ++ rest)) = _
    simp only [scanInt, hsign.1, hsign.2, if_false, Bool.false_eq_true, hn,
      Option.map_some']

/-- Helper: `scanInt` on a minus sign followed by digits. -/
theorem scanInt_neg_digits (ds rest : List Char) (hds : ds.all (isDigitB 10) = true)
    (hne : ds ≠ []) (hrest : stopsScan 10 rest = true) :
    scanInt 10 ('-' :: (ds ++ rest)) = some (-(digitsVal ds : Int), rest) := by
  simp only [scanInt]
  rw [if_pos (by rfl), scanNat_digits ds rest hds hne hrest]
  simp only [Option.map_some']

/-- Helper: `scan3d` reads a 1-to-3 digit field up to a non-digit
delimiter. -/
theorem scan3d_digits (ds : List Char) (d : Char) (rest : List Char)
    (hds : ds.all (isDigitB 10) = true) (hne : ds ≠ []) (hlen : ds.length ≤ 3)
    (hd : isDigitB 10 d = false) :
    scan3d (ds ++ d :: rest) = some ((digitsVal ds : Int), d :: rest) := by
  have hstop : stopsScan 10 (d :: rest) = true := by rw [stopsScan_cons, hd]; rfl
  match ds, hne with
  | [x], _ =>
    have ht : (x :: d :: rest).take 3 = x :: d :: rest.take 1 := rfl
    have hdr : (x :: d :: rest).drop 3 = rest.drop 1 := rfl
    have hstop1 : stopsScan 10 (d :: rest.take 1) = true := by rw [stopsScan_cons, hd]; rfl
    have hsi := scanInt_digits [x] (d :: rest.take 1) hds (by simp) hstop1
    simp only [List.cons_append, List.nil_append] at hsi
    show scan3d (x :: d :: rest) = _
    unfold scan3d
    rw [ht, hdr, hsi]
    simp only [List.cons_append, List.take_append_drop]
  | [x, y], _ =>
    have ht : (x :: y :: d :: rest).take 3 = [x, y, d] := rfl
    have hdr : (x :: y :: d :: rest).drop 3 = rest := rfl
    have hstop1 : stopsScan 10 [d] = true := by rw [stopsScan_cons, hd]; rfl
    have hsi := scanInt_digits [x, y] [d] hds (by simp) hstop1
    simp only [List.cons_append, List.nil_append] at hsi
    show scan3d (x :: y :: d :: rest) = _
    unfold scan3d
    rw [ht, hdr, hsi]
    simp only [List.cons_append, List.nil_append]
  | [x, y, z], _ =>
    have ht : (x :: y :: z :: d :: rest).take 3 = [x, y, z] := rfl
    have hdr : (x :: y :: z :: d :: rest).drop 3 = d :: rest := rfl
    have hsi := scanInt_digits [x, y, z] [] hds (by simp) rfl
    simp only [List.append_nil] at hsi
    show scan3d (x :: y :: z :: d :: rest) = _
    unfold scan3d
    rw [ht, hdr, hsi]
    simp only [List.nil_append]
  | x :: y :: z :: w :: tail, _ => simp at hlen

/-- Helper: `scan3d` reads a signed field (`-` plus one or two digits)
up to a non-digit delimiter. -/
theorem scan3d_neg (ds : List Char) (d : Char) (rest : List Char)
    (hds : ds.all (isDigitB 10) = true) (hne : ds ≠ []) (hlen : ds.length ≤ 2)
    (hd : isDigitB 10 d = false) :
    scan3d (('-' :: ds) ++ d :: rest) = some (-(digitsVal ds : Int), d :: rest) := by
  match ds, hne with
  | [x], _ =>
    have ht : ('-' :: x :: d :: rest).take 3 = ['-', x, d] := rfl
    have hdr : ('-' :: x :: d :: rest).drop 3 = rest := rfl
    have hstop1 : stopsScan 10 [d] = true := by rw [stopsScan_cons, hd]; rfl
    have hsi := scanInt_neg_digits [x] [d] hds (by simp) hstop1
    simp only [List.cons_append, List.nil_append] at hsi
    show scan3d ('-' :: x :: d :: rest) = _
    unfold scan3d
    rw [ht, hdr, hsi]
    simp only [List.cons_append, List.nil_append]
  | [x, y], _ =>
    have ht : ('-' :: x :: y :: d :: rest).take 3 = ['-', x, y] := rfl
    have hdr : ('-' :: x :: y :: d :: rest).drop 3 = d :: rest := rfl
    have hsi := scanInt_neg_digits [x, y] [] hds (by simp) rfl
    simp only [List.append_nil] at hsi
    show scan3d ('-' :: x :: y :: d :: rest) = _
    unfold scan3d
    rw [ht, hdr, hsi]
    simp only [List.nil_append]
  | x :: y :: z :: tail, _ => simp at hlen

/-- Helper: inversion of `digitsAcc` — the consumed prefix is exactly a
maximal digit run. -/
theorem digitsAcc_inv (b : Nat) (cs : List Char) :
    ∀ (a n : Nat) (rest : List Char), digitsAcc b a cs = (n, rest) →
      ∃ ds, cs = ds ++ rest ∧ ds.all (isDigitB b) = true ∧ stopsScan b rest = true ∧
        n = ds.foldl (digitStep b) a := by
  induction cs with
  | nil =>
    intro a n rest h
    simp only [digitsAcc, Prod.mk.injEq] at h
    obtain ⟨h1, h2⟩ := h
    subst h2
    exact ⟨[], rfl, rfl, rfl, h1.symm⟩
  | cons c cs ih =>
    intro a n rest h
    simp only [digitsAcc] at h
    by_cases hc : isDigitB b c = true
    · rw [if_pos hc] at h
      obtain ⟨ds, h1, h2, h3, h4⟩ := ih _ _ _ h
      refine ⟨c :: ds, by simp [h1], by simp [hc, h2], h3, by simp [h4, digitStep]⟩
    · rw [if_neg hc] at h
      simp only [Prod.mk.injEq] at h
      obtain ⟨h1, h2⟩ := h
      subst h2
      refine ⟨[], rfl, rfl, ?_, h1.symm⟩
      simp [stopsScan, hc]

/-- Helper: inversion of `scanNat`. -/
theorem scanNat_inv (b : Nat) (cs : List Char) (n : Nat) (rest : List Char)
    (h : scanNat b cs = some (n, rest)) :
    ∃ ds, cs = ds ++ rest ∧ ds ≠ [] ∧ ds.all (isDigitB b) = true ∧
      stopsScan b rest = true ∧ n = ds.foldl (digitStep b) 0 := by
  cases cs with
  | nil => simp [scanNat] at h
  | cons c cs2 =>
    simp only [scanNat] at h
    by_cases hc : isDigitB b c = true
    · rw [if_pos hc] at h
      have h2 : digitsAcc b 0 (c :: cs2) = (n, rest) := by simpa using h
      obtain ⟨ds, h1, hall, hstop, hval⟩ := digitsAcc_inv b (c :: cs2) 0 n rest h2
      refine ⟨ds, h1, ?_, hall, hstop, hval⟩
      intro hnil
      subst hnil
      simp only [List.nil_append] at h1
      rw [← h1, stopsScan, hc] at hstop
      simp at hstop
    · rw [if_neg hc] at h
      simp at h

/-- Helper: inversion of `scanInt` on plus-free input. -/
theorem scanInt_inv (cs : List Char) (v : Int) (rest : List Char)
    (hplus : '+' ∉ cs) (h : scanInt 10 cs = some (v, rest)) :
    (∃ ds, cs = ds ++ rest ∧ ds ≠ [] ∧ ds.all (isDigitB 10) = true ∧
        stopsScan 10 rest = true ∧ v = (digitsVal ds : Int)) ∨
      (∃ ds, cs = '-' :: (ds ++ rest) ∧ ds ≠ [] ∧ ds.all (isDigitB 10) = true ∧
        stopsScan 10 rest = true ∧ v = -(digitsVal ds : Int)) := by
  cases cs with
  | nil => simp [scanInt] at h
  | cons c cs2 =>
    simp only [scanInt] at h
    by_cases hm : (c == '-') = true
    · rw [if_pos hm] at h
      have hc : c = '-' := by simpa using hm
      subst hc
      cases hn : scanNat 10 cs2 with
      | none => rw [hn] at h; simp at h
      | some p =>
        rw [hn] at h
        obtain ⟨n2, rest2⟩ := p
        simp only [Option.map_some', Option.some.injEq, Prod.mk.injEq] at h
        obtain ⟨ds, h1, h2, h3, h4, h5⟩ := scanNat_inv 10 cs2 n2 rest2 hn
        rw [h.2] at h1 h4
        right
        refine ⟨ds, by rw [h1], h2, h3, h4, ?_⟩
        rw [← h.1, digitsVal_eq, h5]
    · rw [if_neg hm] at h
      have hp : (c == '+') = false := by
        rw [beq_eq_false_iff_ne]
        intro hc
        exact hplus (by simp [hc])
      rw [hp] at h
      simp only [Bool.false_eq_true, if_false] at h
      cases hn : scanNat 10 (c :: cs2) with
      | none => rw [hn] at h; simp at h
      | some p =>
        rw [hn] at h
        obtain ⟨n2, rest2⟩ := p
        simp only [Option.map_some', Option.some.injEq, Prod.mk.injEq] at h
        obtain ⟨ds, h1, h2, h3, h4, h5⟩ := scanNat_inv 10 (c :: cs2) n2 rest2 hn
        rw [h.2] at h1 h4
        left
        refine ⟨ds, h1, h2, h3, h4, ?_⟩
        rw [← h.1, digitsVal_eq, h5]

/-- Helper: inversion of `scan3d` — the consumed field is at most three
characters, digits with an optional leading minus. -/
theorem scan3d_inv (cs : List Char) (v : Int) (rest : List Char)
    (hplus : '+' ∉ cs) (h : scan3d cs = some (v, rest)) :
    ∃ f, cs = f ++ rest ∧ f ≠ [] ∧ f.length ≤ 3 ∧
      ((f.all (isDigitB 10) = true ∧ v = (digitsVal f : Int)) ∨
        (∃ ds, f = '-' :: ds ∧ ds ≠ [] ∧ ds.all (isDigitB 10) = true ∧
          v = -(digitsVal ds : Int))) := by
  unfold scan3d at h
  cases hsi : scanInt 10 (cs.take 3) with
  | none => rw [hsi] at h; simp at h
  | some p =>
    rw [hsi] at h
    obtain ⟨v2, restw⟩ := p
    simp only [Option.some.injEq, Prod.mk.injEq] at h
    have hplus3 : '+' ∉ cs.take 3 := fun hm => hplus (List.take_subset 3 cs hm)
    have htd : cs.take 3 ++ cs.drop 3 = cs := List.take_append_drop 3 cs
    rcases scanInt_inv (cs.take 3) v2 restw hplus3 hsi with
      ⟨ds, h1, h2, h3, _h4, h5⟩ | ⟨ds, h1, h2, h3, _h4, h5⟩
    · refine ⟨ds, ?_, h2, ?_, Or.inl ⟨h3, by rw [← h.1]; exact h5⟩⟩
      · rw [← htd, h1, ← h.2]
        simp
      · have := congrArg List.length h1
        simp only [List.length_append] at this
        have hlt := List.length_take_le 3 cs
        omega
    · refine ⟨'-' :: ds, ?_, by simp, ?_, Or.inr ⟨ds, rfl, h2, h3, by rw [← h.1]; exact h5⟩⟩
      · rw [← htd, h1, ← h.2]
        simp
      · have := congrArg List.length h1
        simp only [List.length_cons, List.length_append] at this
        have hlt := List.length_take_le 3 cs
        simp only [List.length_cons]
        omega

/-- Helper: a field accepted by `fieldOk3` scans under `%3d` up to any
non-digit delimiter, yielding a value in 0..255. -/
theorem fieldOk3_scan (f : List Char) (d : Char) (rest : List Char)
    (h : fieldOk3 f = true) (hd : isDigitB 10 d = false) :
    ∃ v, scan3d (f ++ d :: rest) = some (v, d :: rest) ∧ inByteRange v = true := by
  cases f with
  | nil => simp [fieldOk3] at h
  | cons c ds =>
    simp only [fieldOk3] at h
    by_cases hm : (c == '-') = true
    · rw [if_pos hm] at h
      have hc : c = '-' := by simpa using hm
      subst hc
      simp only [Bool.and_eq_true, decide_eq_true_eq, beq_iff_eq] at h
      obtain ⟨⟨⟨hne, hlen⟩, hall⟩, hval⟩ := h
      have hne2 : ds ≠ [] := by
        intro hd2
        subst hd2
        simp at hne
      have hall2 : ds.all (isDigitB 10) = true := by
        rw [List.all_eq_true] at hall ⊢
        intro x hx
        rw [isDigitB_ten]
        exact hall x hx
      refine ⟨-(digitsVal ds : Int), scan3d_neg ds d rest hall2 hne2 hlen hd, ?_⟩
      rw [hval]
      decide
    · rw [if_neg hm] at h
      simp only [Bool.and_eq_true, decide_eq_true_eq] at h
      obtain ⟨⟨hlen, hall⟩, hval⟩ := h
      have hall2 : (c :: ds).all (isDigitB 10) = true := by
        rw [List.all_eq_true] at hall ⊢
        intro x hx
        rw [isDigitB_ten]
        exact hall x hx
      refine ⟨(digitsVal (c :: ds) : Int),
        scan3d_digits (c :: ds) d rest hall2 (by simp) hlen hd, ?_⟩
      simp only [inByteRange, Bool.and_eq_true, decide_eq_true_eq]
      exact ⟨Int.natCast_nonneg _, by exact_mod_cast hval⟩

/-- Helper: an amended-valid name passes the Go scanf IPv4 test. -/
theorem amended_imp_go (name : List Char) (h : amendedIPv4 name = true) :
    ipv4Go name = true := by
  unfold amendedIPv4 at h
  cases hs : splitDots name with
  | nil => exact absurd hs (splitDots_ne_nil name)
  | cons a gs1 =>
    rw [hs] at h
    cases gs1 with
    | nil => simp at h
    | cons b gs2 =>
      cases gs2 with
      | nil => simp at h
      | cons c gs3 =>
        cases gs3 with
        | nil => simp at h
        | cons dd gs4 =>
          cases gs4 with
          | cons e gs5 => simp at h
          | nil =>
            simp only [Bool.and_eq_true] at h
            obtain ⟨⟨⟨hA, hB⟩, hC⟩, hD⟩ := h
            have hname : name = a ++ '.' :: (b ++ '.' :: (c ++ '.' :: dd)) := by
              have hj := joinDots_splitDots name
              rw [hs] at hj
              simpa [joinDots] using hj.symm
            obtain ⟨va, hsa, hba⟩ :=
              fieldOk3_scan a '.' (b ++ '.' :: (c ++ '.' :: (dd ++ ['!']))) hA (by decide)
            obtain ⟨vb, hsb, hbb⟩ :=
              fieldOk3_scan b '.' (c ++ '.' :: (dd ++ ['!'])) hB (by decide)
            obtain ⟨vc, hsc, hbc⟩ := fieldOk3_scan c '.' (dd ++ ['!']) hC (by decide)
            obtain ⟨vd, hsd, hbd⟩ := fieldOk3_scan dd '!' [] hD (by decide)
            unfold ipv4Go
            rw [hname]
            have harr : (a ++ '.' :: (b ++ '.' :: (c ++ '.' :: dd))) ++ ['!']
                = a ++ '.' :: (b ++ '.' :: (c ++ '.' :: (dd ++ ['!']))) := by
              simp
            rw [harr]
            unfold scanIPv4
            rw [hsa]
            simp only []
            rw [if_pos (show (('.' : Char) == '.') = true from rfl)]
            rw [hsb]
            simp only []
            rw [if_pos (show (('.' : Char) == '.') = true from rfl)]
            rw [hsc]
            simp only []
            rw [if_pos (show (('.' : Char) == '.') = true from rfl)]
            have hd4 : dd ++ ['!'] = dd ++ '!' :: ([] : List Char) := rfl
            rw [hd4, hsd]
            simp only []
            rw [hba, hbb, hbc, hbd]
            rfl

/-- Helper: a character failing `bucketCharOk` does not occur in an
all-valid name. -/
theorem all_bucketCharOk_not_mem (name : List Char) (h : name.all bucketCharOk = true)
    (c : Char) (hc : bucketCharOk c = false) : c ∉ name := by
  intro hm
  rw [List.all_eq_true] at h
  have h2 := h c hm
  rw [hc] at h2
  exact absurd h2 (by simp)

/-- Helper: a non-digit character does not occur in an all-digit run. -/
theorem not_mem_of_all_digits (ds : List Char) (h : ds.all (isDigitB 10) = true)
    (c : Char) (hc : isDigitB 10 c = false) : c ∉ ds := by
  intro hm
  rw [List.all_eq_true] at h
  have h2 := h c hm
  rw [hc] at h2
  exact absurd h2 (by simp)

/-- Helper: a scanned field (digits, or minus then digits) contains
neither `!` nor `.`. -/
theorem field_no_bang_dot (f : List Char) (v : Int)
    (hf : (f.all (isDigitB 10) = true ∧ v = (digitsVal f : Int)) ∨
      (∃ ds, f = '-' :: ds ∧ ds ≠ [] ∧ ds.all (isDigitB 10) = true ∧
        v = -(digitsVal ds : Int))) :
    '!' ∉ f ∧ '.' ∉ f := by
  rcases hf with ⟨hall, _⟩ | ⟨ds, rfl, _, hall, _⟩
  · exact ⟨not_mem_of_all_digits f hall '!' (by decide),
      not_mem_of_all_digits f hall '.' (by decide)⟩
  · constructor
    · intro hm
      rcases List.mem_cons.mp hm with hm | hm
      · exact absurd hm (by decide)
      · exact not_mem_of_all_digits ds hall '!' (by decide) hm
    · intro hm
      rcases List.mem_cons.mp hm with hm | hm
      · exact absurd hm (by decide)
      · exact not_mem_of_all_digits ds hall '.' (by decide) hm

/-- Helper: the first `!` splits a concatenation uniquely. -/
theorem eq_append_bang : ∀ (l1 l2 t1 t2 : List Char),
    l1 ++ '!' :: t1 = l2 ++ '!' :: t2 → '!' ∉ l1 → '!' ∉ l2 →
      l1 = l2 ∧ t1 = t2 := by
  intro l1
  induction l1 with
  | nil =>
    intro l2 t1 t2 h h1 h2
    cases l2 with
    | nil => simpa using h
    | cons c2 l2 =>
      simp only [List.nil_append, List.cons_append, List.cons.injEq] at h
      exfalso
      apply h2
      rw [← h.1]
      exact List.mem_cons_self _ _
  | cons c l1 ih =>
    intro l2 t1 t2 h h1 h2
    cases l2 with
    | nil =>
      simp only [List.cons_append, List.nil_append, List.cons.injEq] at h
      exfalso
      apply h1
      rw [h.1]
      exact List.mem_cons_self _ _
    | cons c2 l2 =>
      simp only [List.cons_append, List.cons.injEq] at h
      have hin1 : '!' ∉ l1 := fun hm => h1 (List.mem_cons_of_mem _ hm)
      have hin2 : '!' ∉ l2 := fun hm => h2 (List.mem_cons_of_mem _ hm)
      obtain ⟨he, ht⟩ := ih l2 t1 t2 h.2 hin1 hin2
      exact ⟨by rw [h.1, he], ht⟩

/-- Helper: a field produced by `scan3d` with an in-range value passes
`fieldOk3`. -/
theorem fieldOk3_of_scan (f : List Char) (v : Int) (hne : f ≠ []) (hlen : f.length ≤ 3)
    (hf : (f.all (isDigitB 10) = true ∧ v = (digitsVal f : Int)) ∨
      (∃ ds, f = '-' :: ds ∧ ds ≠ [] ∧ ds.all (isDigitB 10) = true ∧
        v = -(digitsVal ds : Int)))
    (hb : inByteRange v = true) : fieldOk3 f = true := by
  rcases hf with ⟨hall, hv⟩ | ⟨ds, rfl, hdne, hall, hv⟩
  · cases f with
    | nil => exact absurd rfl hne
    | cons c fs =>
      have hcd : isDigitB 10 c = true := by
        rw [List.all_eq_true] at hall
        exact hall c (List.mem_cons_self _ _)
      have hcm : (c == '-') = false := by
        rw [beq_eq_false_iff_ne]
        intro hc
        subst hc
        exact absurd hcd (by decide)
      simp only [fieldOk3]
      rw [hcm]
      simp only [Bool.false_eq_true, if_false, Bool.and_eq_true, decide_eq_true_eq]
      refine ⟨⟨hlen, ?_⟩, ?_⟩
      · rw [List.all_eq_true] at hall ⊢
        intro x hx
        rw [← isDigitB_ten]
        exact hall x hx
      · rw [hv] at hb
        simp only [inByteRange, Bool.and_eq_true, decide_eq_true_eq] at hb
        exact_mod_cast hb.2
  · simp only [fieldOk3]
    rw [if_pos (show (('-' : Char) == '-') = true from rfl)]
    simp only [Bool.and_eq_true, decide_eq_true_eq, beq_iff_eq]
    refine ⟨⟨⟨?_, ?_⟩, ?_⟩, ?_⟩
    · cases ds with
      | nil => exact absurd rfl hdne
      | cons _ _ => rfl
    · simp only [List.length_cons] at hlen
      omega
    · rw [List.all_eq_true] at hall ⊢
      intro x hx
      rw [← isDigitB_ten]
      exact hall x hx
    · rw [hv] at hb
      simp only [inByteRange, Bool.and_eq_true, decide_eq_true_eq] at hb
      have hb1 := hb.1
      omega

/-- Helper: a name over the bucket character set that passes the Go
scanf IPv4 test is an amended dotted quad. -/
theorem go_imp_amended (name : List Char) (hch : name.all bucketCharOk = true)
    (h : ipv4Go name = true) : amendedIPv4 name = true := by
  have hplus : '+' ∉ name ++ ['!'] := by
    intro hm
    rcases List.mem_append.mp hm with hm | hm
    · exact all_bucketCharOk_not_mem name hch '+' (by decide) hm
    · rw [List.mem_singleton] at hm
      exact absurd hm (by decide)
  have hbang : '!' ∉ name := all_bucketCharOk_not_mem name hch '!' (by decide)
  unfold ipv4Go scanIPv4 at h
  cases h1 : scan3d (name ++ ['!']) with
  | none => rw [h1] at h; simp at h
  | some p1 =>
    obtain ⟨va, r1⟩ := p1
    rw [h1] at h
    simp only [] at h
    cases r1 with
    | nil => simp at h
    | cons c1 r1b =>
      simp only [] at h
      by_cases hc1 : (c1 == '.') = true
      · rw [if_pos hc1] at h
        have hc1e : c1 = '.' := by simpa using hc1
        subst hc1e
        cases h2 : scan3d r1b with
        | none => rw [h2] at h; simp at h
        | some p2 =>
          obtain ⟨vb, r2⟩ := p2
          rw [h2] at h
          simp only [] at h
          cases r2 with
          | nil => simp at h
          | cons c2 r2b =>
            simp only [] at h
            by_cases hc2 : (c2 == '.') = true
            · rw [if_pos hc2] at h
              have hc2e : c2 = '.' := by simpa using hc2
              subst hc2e
              cases h3 : scan3d r2b with
              | none => rw [h3] at h; simp at h
              | some p3 =>
                obtain ⟨vc, r3⟩ := p3
                rw [h3] at h
                simp only [] at h
                cases r3 with
                | nil => simp at h
                | cons c3 r3b =>
                  simp only [] at h
                  by_cases hc3 : (c3 == '.') = true
                  · rw [if_pos hc3] at h
                    have hc3e : c3 = '.' := by simpa using hc3
                    subst hc3e
                    cases h4 : scan3d r3b with
                    | none => rw [h4] at h; simp at h
                    | some p4 =>
                      obtain ⟨vd, r4⟩ := p4
                      rw [h4] at h
                      simp only [] at h
                      cases r4 with
                      | nil => simp at h
                      | cons e r4b =>
                        simp only [Bool.and_eq_true] at h
                        obtain ⟨⟨⟨⟨he, hbA⟩, hbB⟩, hbC⟩, hbD⟩ := h
                        have he2 : e = '!' := by simpa using he
                        subst he2
                        obtain ⟨f1, hE1, hne1, hlen1, hsh1⟩ :=
                          scan3d_inv (name ++ ['!']) va ('.' :: r1b) hplus h1
                        have hp1 : '+' ∉ r1b := by
                          intro hm
                          apply hplus
                          rw [hE1]
                          exact List.mem_append_right _ (List.mem_cons_of_mem _ hm)
                        obtain ⟨f2, hE2, hne2, hlen2, hsh2⟩ :=
                          scan3d_inv r1b vb ('.' :: r2b) hp1 h2
                        have hp2 : '+' ∉ r2b := by
                          intro hm
                          apply hp1
                          rw [hE2]
                          exact List.mem_append_right _ (List.mem_cons_of_mem _ hm)
                        obtain ⟨f3, hE3, hne3, hlen3, hsh3⟩ :=
                          scan3d_inv r2b vc ('.' :: r3b) hp2 h3
                        have hp3 : '+' ∉ r3b := by
                          intro hm
                          apply hp2
                          rw [hE3]
                          exact List.mem_append_right _ (List.mem_cons_of_mem _ hm)
                        obtain ⟨f4, hE4, hne4, hlen4, hsh4⟩ :=
                          scan3d_inv r3b vd ('!' :: r4b) hp3 h4
                        obtain ⟨hnb1, hnd1⟩ := field_no_bang_dot f1 va hsh1
                        obtain ⟨hnb2, hnd2⟩ := field_no_bang_dot f2 vb hsh2
                        obtain ⟨hnb3, hnd3⟩ := field_no_bang_dot f3 vc hsh3
                        obtain ⟨hnb4, hnd4⟩ := field_no_bang_dot f4 vd hsh4
                        have hEq : name ++ '!' :: ([] : List Char) =
                            (f1 ++ '.' :: (f2 ++ '.' :: (f3 ++ '.' :: f4))) ++ '!' :: r4b := by
                          rw [show name ++ '!' :: ([] : List Char) = name ++ ['!'] from rfl]
                          rw [hE1, hE2, hE3, hE4]
                          simp
                        have hbx : '!' ∉ f1 ++ '.' :: (f2 ++ '.' :: (f3 ++ '.' :: f4)) := by
                          intro hm
                          simp only [List.mem_append, List.mem_cons] at hm
                          rcases hm with hm | hm | hm | hm | hm | hm | hm
                          · exact hnb1 hm
                          · exact absurd hm (by decide)
                          · exact hnb2 hm
                          · exact absurd hm (by decide)
                          · exact hnb3 hm
                          · exact absurd hm (by decide)
                          · exact hnb4 hm
                        obtain ⟨hname, _⟩ :=
                          eq_append_bang name (f1 ++ '.' :: (f2 ++ '.' :: (f3 ++ '.' :: f4)))
                            [] r4b hEq hbang hbx
                        have s4 : splitDots f4 = [f4] := splitDots_dotfree f4 hnd4
                        have s3p : splitDots ('.' :: f4) = [[], f4] := by
                          simp [splitDots, s4]
                        have s3 : splitDots (f3 ++ '.' :: f4) = [f3, f4] := by
                          have hs := splitDots_append f3 ('.' :: f4) [] [f4] hnd3 s3p
                          simpa using hs
                        have s2p : splitDots ('.' :: (f3 ++ '.' :: f4)) = [[], f3, f4] := by
                          simp [splitDots, s3]
                        have s2 : splitDots (f2 ++ '.' :: (f3 ++ '.' :: f4)) = [f2, f3, f4] := by
                          have hs := splitDots_append f2 ('.' :: (f3 ++ '.' :: f4)) [] [f3, f4]
                            hnd2 s2p
                          simpa using hs
                        have s1p : splitDots ('.' :: (f2 ++ '.' :: (f3 ++ '.' :: f4)))
                            = [[], f2, f3, f4] := by
                          simp [splitDots, s2]
                        have s1 : splitDots (f1 ++ '.' :: (f2 ++ '.' :: (f3 ++ '.' :: f4)))
                            = [f1, f2, f3, f4] := by
                          have hs := splitDots_append f1 ('.' :: (f2 ++ '.' :: (f3 ++ '.' :: f4)))
                            [] [f2, f3, f4] hnd1 s1p
                          simpa using hs
                        have hF1 := fieldOk3_of_scan f1 va hne1 hlen1 hsh1 hbA
                        have hF2 := fieldOk3_of_scan f2 vb hne2 hlen2 hsh2 hbB
                        have hF3 := fieldOk3_of_scan f3 vc hne3 hlen3 hsh3 hbC
                        have hF4 := fieldOk3_of_scan f4 vd hne4 hlen4 hsh4 hbD
                        unfold amendedIPv4
                        rw [hname, s1]
                        simp only []
                        rw [hF1, hF2, hF3, hF4]
                        rfl
                  · rw [if_neg hc3] at h
                    simp at h
            · rw [if_neg hc2] at h
              simp at h
      · rw [if_neg hc1] at h
        simp at h

/-- Helper: over the bucket character set, the Go scanf IPv4 test agrees
with the amended dotted-quad wording. -/
theorem ipv4_go_eq_amended (name : List Char) (hch : name.all bucketCharOk = true) :
    ipv4Go name = amendedIPv4 name := by
  cases hg : ipv4Go name with
  | true => rw [go_imp_amended name hch hg]
  | false =>
    cases ha : amendedIPv4 name with
    | false => rfl
    | true =>
      have h2 := amended_imp_go name ha
      rw [hg] at h2
      exact absurd h2 (by simp)

/-- C8 counterexample: `parseBucket` accepts the name `0255.1.1.1`,
which the spec's reading ("four 0–255 integers separated by dots")
classifies as a dotted IPv4 and therefore rejects: the `%3d` verb reads
at most three characters per field, so `0255` is not scanned as one
octet. -/
theorem bucket_validation_counterexample :
    parseBucketValid ("0255.1.1.1".data) = true ∧
      specBucketValid ("0255.1.1.1".data) = false := by
  constructor
  · decide
  · decide

/-- C8: `parseBucket` accepts a name exactly when its length is 3..255,
every character is in `[a-z0-9._-]`, the first character is a letter or
digit, and the name is not accepted by the `%3d.%3d.%3d.%3d%c` scanf
pattern — that is, it does not consist of four dot-separated fields of
at most three characters each, every field an optional minus sign
followed by digits with value in 0..255.  In particular the name
`192.168.1.1` is rejected. -/
theorem parseBucket_validation (name : List Char) :
    parseBucketValid name = amendedBucketValid name ∧
      parseBucketValid ("192.168.1.1".data) = false := by
  refine ⟨?_, by decide⟩
  unfold parseBucketValid amendedBucketValid
  by_cases h3 : 3 ≤ name.length
  · by_cases h255 : name.length ≤ 255
    · rw [if_neg (by simp only [Bool.or_eq_true, decide_eq_true_eq]; omega)]
      by_cases hch : name.all bucketCharOk = true
      · rw [if_neg (by simp [hch])]
        simp only [hch, decide_eq_true h3, decide_eq_true h255, Bool.true_and, Bool.and_true]
        cases name with
        | nil => simp at h3
        | cons c rest =>
          simp only []
          rw [ipv4_go_eq_amended (c :: rest) hch]
      · have hch2 : name.all bucketCharOk = false := by
          cases hb : name.all bucketCharOk with
          | true => exact absurd hb hch
          | false => rfl
        rw [if_pos (by simp [hch2])]
        simp [hch2]
    · rw [if_pos (by simp only [Bool.or_eq_true, decide_eq_true_eq]; omega)]
      simp [h255]
  · rw [if_pos (by simp only [Bool.or_eq_true, decide_eq_true_eq]; omega)]
    simp [h3]

/-! ## Cache/remote write ordering (C2) -/

/-- A successful mutating remote call (`UploadRequest` or `CopyRequest`
acknowledged). -/
def Act.isRemoteSuccess : Act → Bool
  | .uploadRequest true => true
  | .copyRequest _ true => true
  | _ => false

/-- A cache row insert (`SetFileInfo`). -/
def Act.isCacheInsert : Act → Bool
  | .setFileInfo _ _ => true
  | _ => false

/-- Trace scanner: every mutating remote request is preceded by a
successful `DeleteFileInfo`; `cleared` says whether one has already
happened (initially true when no row exists). -/
def mutationsCacheCleared : Bool → List Act → Bool
  | _, [] => true
  | cleared, a :: tr =>
    (!a.isWireMutation || cleared) &&
      mutationsCacheCleared (cleared || a == .deleteFileInfo true) tr

/-- Trace scanner: every cache row insert is preceded by a successful
mutating remote call. -/
def insertAfterRemoteSuccess : Bool → List Act → Bool
  | _, [] => true
  | okSeen, a :: tr =>
    (!a.isCacheInsert || okSeen) &&
      insertAfterRemoteSuccess (okSeen || a.isRemoteSuccess) tr

/-- Helper: once the row is cleared the first scanner never fails. -/
theorem mutationsCacheCleared_true (tr : List Act) :
    mutationsCacheCleared true tr = true := by
  induction tr with
  | nil => rfl
  | cons a tr ih => simp [mutationsCacheCleared, ih]

/-- Helper: `uploadCore` traces respect both write orderings. -/
theorem uploadCore_ordering (p : Propolis) (env : Env) (hash chh : String) (size : Int) :
    mutationsCacheCleared true (uploadCore p env hash chh size).1 = true ∧
      insertAfterRemoteSuccess false (uploadCore p env hash chh size).1 = true := by
  refine ⟨mutationsCacheCleared_true _, ?_⟩
  unfold uploadCore
  repeat' split
  all_goals simp [insertAfterRemoteSuccess, Act.isCacheInsert, Act.isRemoteSuccess]

/-- C2: crash-safety ordering of cache writes around remote mutations in
`UploadFile`: whenever a cache row exists on entry (`cacheInfo` set), a
successful `DeleteFileInfo` precedes every mutating remote request in
the produced trace, and every cache row insert (`SetFileInfo`) comes
after a successful `UploadRequest` or `CopyRequest`. -/
theorem upload_cache_write_ordering (p : Propolis) (env : Env) (l : FileInfo)
    (cacheInfo : Option FileInfo) (cacheHashHex hash0 : String) :
    mutationsCacheCleared cacheInfo.isNone
        (UploadFile p env l cacheInfo cacheHashHex hash0).1 = true ∧
      insertAfterRemoteSuccess false
        (UploadFile p env l cacheInfo cacheHashHex hash0).1 = true := by
  cases cacheInfo with
  | none =>
    refine ⟨mutationsCacheCleared_true _, ?_⟩
    simp only [UploadFile]
    by_cases hsp : (env.serverPath == "" || untrackedKind p l) = true
    · simp [hsp, insertAfterRemoteSuccess]
    · by_cases hh : (hash0 == "") = true
      · cases hmd : env.getMd5Ok with
        | false => simp [hsp, hh, hmd, insertAfterRemoteSuccess, Act.isCacheInsert]
        | true =>
          cases hcore : uploadCore p env env.localHashHex cacheHashHex
            (if l.isDirectory then 0 else l.size) with
          | mk tr e =>
            have hc := uploadCore_ordering p env env.localHashHex cacheHashHex
              (if l.isDirectory then 0 else l.size)
            rw [hcore] at hc
            simp [hsp, hh, hmd, hcore, insertAfterRemoteSuccess, Act.isCacheInsert,
              Act.isRemoteSuccess, hc.2]
      · cases hcore : uploadCore p env hash0 cacheHashHex
          (if l.isDirectory then 0 else l.size) with
        | mk tr e =>
          have hc := uploadCore_ordering p env hash0 cacheHashHex
            (if l.isDirectory then 0 else l.size)
          rw [hcore] at hc
          simp [hsp, hh, hcore, hc.2]
  | some i =>
    simp only [UploadFile]
    cases hdb : env.dbDeleteOk with
    | false =>
      simp [hdb, mutationsCacheCleared, insertAfterRemoteSuccess, Act.isWireMutation,
        Act.isCacheInsert]
    | true =>
      by_cases hsp : (env.serverPath == "" || untrackedKind p l) = true
      · by_cases hp : p.practice = true
        · simp [hdb, hsp, hp, mutationsCacheCleared, insertAfterRemoteSuccess,
            Act.isWireMutation, Act.isCacheInsert]
        · cases hdr : env.deleteRequestOk with
          | false =>
            simp [hdb, hsp, hp, hdr, mutationsCacheCleared, insertAfterRemoteSuccess,
              Act.isWireMutation, Act.isCacheInsert]
          | true =>
            simp [hdb, hsp, hp, hdr, mutationsCacheCleared, insertAfterRemoteSuccess,
              Act.isWireMutation, Act.isCacheInsert]
      · by_cases hh : (hash0 == "") = true
        · cases hmd : env.getMd5Ok with
          | false =>
            simp [hdb, hsp, hh, hmd, mutationsCacheCleared, insertAfterRemoteSuccess,
              Act.isWireMutation, Act.isCacheInsert]
          | true =>
            cases hcore : uploadCore p env env.localHashHex cacheHashHex
              (if l.isDirectory then 0 else l.size) with
            | mk tr e =>
              have hc := uploadCore_ordering p env env.localHashHex cacheHashHex
                (if l.isDirectory then 0 else l.size)
              rw [hcore] at hc
              simp [hdb, hsp, hh, hmd, hcore, mutationsCacheCleared,
                insertAfterRemoteSuccess, Act.isWireMutation, Act.isCacheInsert,
                Act.isRemoteSuccess, mutationsCacheCleared_true, hc.2]
        · cases hcore : uploadCore p env hash0 cacheHashHex
            (if l.isDirectory then 0 else l.size) with
          | mk tr e =>
            have hc := uploadCore_ordering p env hash0 cacheHashHex
              (if l.isDirectory then 0 else l.size)
            rw [hcore] at hc
            simp [hdb, hsp, hh, hcore, mutationsCacheCleared, insertAfterRemoteSuccess,
              Act.isWireMutation, Act.isCacheInsert, Act.isRemoteSuccess,
              mutationsCacheCleared_true, hc.2]

/-! ## Content-dedup copy precondition and fallback (C5) -/

/-- Any `CopyRequest`, succeeded or failed. -/
def Act.isCopy : Act → Bool
  | .copyRequest _ _ => true
  | _ => false

/-- Trace scanner: a `CopyRequest` that fails at the wire is immediately
followed by the `UploadRequest` fallback. -/
def copyFailHandled : List Act → Bool
  | .copyRequest _ false :: .uploadRequest _ :: tr => copyFailHandled tr
  | .copyRequest _ false :: _ => false
  | _ :: tr => copyFailHandled tr
  | [] => true

/-- Helper: a nonempty `GetPathFromMd5` answer is the path of a cached
row whose md5 matches — and nothing constrains that row's size. -/
theorem getPathFromMd5_mem (cache : List CacheRow) (hash sp : String)
    (h : GetPathFromMd5 cache hash sp ≠ "") :
    ∃ r, r ∈ cache ∧ r.md5 = hash ∧ r.path = GetPathFromMd5 cache hash sp := by
  unfold GetPathFromMd5 at h ⊢
  by_cases hany : cache.any (fun r => r.md5 == hash && r.path == sp) = true
  · rw [if_pos hany] at h ⊢
    rw [List.any_eq_true] at hany
    obtain ⟨r, hr, hpr⟩ := hany
    simp only [Bool.and_eq_true, beq_iff_eq] at hpr
    exact ⟨r, hr, hpr.1, hpr.2⟩
  · rw [if_neg hany] at h ⊢
    obtain hf | ⟨r, hf⟩ : cache.find? (fun r => r.md5 == hash) = none ∨
        ∃ r, cache.find? (fun r => r.md5 == hash) = some r := by
      cases cache.find? (fun r => r.md5 == hash) with
      | none => exact Or.inl rfl
      | some r => exact Or.inr ⟨r, rfl⟩
    · rw [hf] at h
      exact absurd rfl h
    · rw [hf] at h ⊢
      have hm := List.mem_of_find?_eq_some hf
      have hp := List.find?_some hf
      simp only [beq_iff_eq] at hp
      exact ⟨r, hm, hp, rfl⟩

/-- C5 (amended): in `UploadFile`'s core, a wire-failed `CopyRequest` is
always followed immediately by the `UploadRequest` fallback, and a copy
is attempted only when the selected source is nonempty, the hash is not
the empty-file hash, and the source is the file itself (unchanged hash),
a `-refresh` scan entry matching hash and size, or a cached path whose
md5 alone matches the local hash — the stored size is not compared. -/
theorem dedup_copy_amended (p : Propolis) (env : Env) (hash chh : String) (size : Int) :
    copyFailHandled (uploadCore p env hash chh size).1 = true ∧
      ((uploadCore p env hash chh size).1.any Act.isCopy = true →
        uploadSrc p env hash chh size ≠ "" ∧
          hash ≠ empty_file_md5_hash ∧
          ((hash = chh ∧ uploadSrc p env hash chh size = env.serverPath) ∨
            (p.refresh = true ∧ ∃ e, env.byContents = some e ∧ e.serverSize = size ∧
              uploadSrc p env hash chh size = e.serverPath) ∨
            (∃ r, r ∈ env.cache ∧ r.md5 = hash ∧
              r.path = uploadSrc p env hash chh size))) := by
  constructor
  · unfold uploadCore
    repeat' split
    all_goals simp [copyFailHandled]
  · intro hany
    by_cases hsrc : uploadSrc p env hash chh size = ""
    · exfalso
      revert hany
      unfold uploadCore
      simp only [hsrc, ne_eq, not_true_eq_false, if_false]
      split_ifs <;> simp [Act.isCopy]
    · refine ⟨hsrc, ?_, ?_⟩
      · intro he
        apply hsrc
        unfold uploadSrc
        simp [he]
      · by_cases h1 : (hash == empty_file_md5_hash) = true
        · exfalso
          apply hsrc
          unfold uploadSrc
          simp [h1]
        · by_cases h2 : (hash == chh) = true
          · left
            refine ⟨by simpa using h2, ?_⟩
            unfold uploadSrc
            simp [h1, h2]
          · by_cases h3 : p.refresh = true
            · cases hbc : env.byContents with
              | some e =>
                by_cases h4 : (e.serverSize == size) = true
                · by_cases h5 : e.serverPath = ""
                  · have hval : uploadSrc p env hash chh size
                        = GetPathFromMd5 env.cache hash env.serverPath := by
                      unfold uploadSrc
                      simp [h1, h2, h3, hbc, h4, h5]
                    right
                    right
                    rw [hval]
                    exact getPathFromMd5_mem env.cache hash env.serverPath
                      (by rw [← hval]; exact hsrc)
                  · right
                    left
                    refine ⟨h3, e, rfl, by simpa using h4, ?_⟩
                    unfold uploadSrc
                    simp [h1, h2, h3, hbc, h4, h5]
                · have hval : uploadSrc p env hash chh size
                      = GetPathFromMd5 env.cache hash env.serverPath := by
                    unfold uploadSrc
                    simp [h1, h2, h3, hbc, h4]
                  right
                  right
                  rw [hval]
                  exact getPathFromMd5_mem env.cache hash env.serverPath
                    (by rw [← hval]; exact hsrc)
              | none =>
                have hval : uploadSrc p env hash chh size
                    = GetPathFromMd5 env.cache hash env.serverPath := by
                  unfold uploadSrc
                  simp [h1, h2, h3, hbc]
                right
                right
                rw [hval]
                exact getPathFromMd5_mem env.cache hash env.serverPath
                  (by rw [← hval]; exact hsrc)
            · have hval : uploadSrc p env hash chh size
                  = GetPathFromMd5 env.cache hash env.serverPath := by
                unfold uploadSrc
                simp [h1, h2, h3]
              right
              right
              rw [hval]
              exact getPathFromMd5_mem env.cache hash env.serverPath
                (by rw [← hval]; exact hsrc)

/-- Concrete configuration for the dedup counterexample: no `-refresh`,
no practice, bucket `b`. -/
def c5p : Propolis := ⟨"b", false, false, false, false⟩

/-- A regular local file of size 7. -/
def c5l : FileInfo := ⟨0o100644, 0, 0, 7, 0⟩

/-- A cached row under another path with the same md5 but size 999. -/
def c5row : CacheRow := ⟨"other", "deadbeef", 0, 0, 0o100644, 0, 999⟩

/-- Environment in which the local file hashes to `deadbeef` (size 7)
while the only cached row with that md5 has size 999. -/
def c5env : Env :=
  ⟨"a", some c5l, [c5row], "", none, true, "deadbeef", true, none,
    true, true, true, true, true, true⟩

/-- C5 counterexample: `UploadFile` issues a server-to-server
`CopyRequest` from `/b/other` although the only cached row with the
matching md5 records size 999 while the local file has size 7 — the
size is never compared (`GetPathFromMd5` looks at the md5 alone). -/
theorem dedup_copy_counterexample :
    (UploadFile c5p c5env c5l (some c5l) "h0" "").1 =
      [.deleteFileInfo true, .getMd5 true, .copyRequest "/b/other" true,
        .closeContents, .setFileInfo true true] ∧
      (∀ r ∈ c5env.cache, r.md5 = "deadbeef" → r.size ≠ c5l.size) := by
  constructor
  · decide
  · decide

/-- Witness for the amended dedup theorem at a run that does copy. -/
theorem dedup_copy_amended_witness :
    copyFailHandled (uploadCore c5p c5env "deadbeef" "h0" 7).1 = true ∧
      (uploadSrc c5p c5env "deadbeef" "h0" 7 ≠ "" ∧
        "deadbeef" ≠ empty_file_md5_hash ∧
        (("deadbeef" = "h0" ∧ uploadSrc c5p c5env "deadbeef" "h0" 7 = c5env.serverPath) ∨
          (c5p.refresh = true ∧ ∃ e, c5env.byContents = some e ∧ e.serverSize = 7 ∧
            uploadSrc c5p c5env "deadbeef" "h0" 7 = e.serverPath) ∨
          (∃ r, r ∈ c5env.cache ∧ r.md5 = "deadbeef" ∧
            r.path = uploadSrc c5p c5env "deadbeef" "h0" 7))) :=
  ⟨(dedup_copy_amended c5p c5env "deadbeef" "h0" 7).1,
    (dedup_copy_amended c5p c5env "deadbeef" "h0" 7).2 (by decide)⟩

/-! ## Practice-mode frame (C9) -/

/-- The writes a practice run may still perform: cache row deletes, and
the server-sourced cache insert `SetFileInfo(elt, false)` made by
`LstatServer` after a HEAD hit. -/
def practiceWriteOk : Act → Bool
  | .deleteFileInfo _ => true
  | .setFileInfo false _ => true
  | a => !a.isWrite

/-- Helper: `LstatServer` traces never contain a wire mutation, and
their only write is the server-sourced insert. -/
theorem lstat_trace_practice (env : Env) :
    (LstatServer env).trace.all (fun a => !a.isWireMutation && practiceWriteOk a) = true := by
  unfold LstatServer
  repeat' split
  all_goals simp [Act.isWireMutation, practiceWriteOk, Act.isWrite, Act.isCacheMutation]

/-- Helper: with `Practice` set, `UploadFile` performs no wire mutation
and writes only cache row deletes. -/
theorem upload_trace_practice (p : Propolis) (env : Env) (l : FileInfo)
    (ci : Option FileInfo) (chh hash0 : String) (hp : p.practice = true) :
    (UploadFile p env l ci chh hash0).1.all
      (fun a => !a.isWireMutation && practiceWriteOk a) = true := by
  unfold UploadFile uploadCore
  repeat' split
  all_goals simp_all [Act.isWireMutation, practiceWriteOk, Act.isWrite, Act.isCacheMutation]

/-- Helper: pointwise form of the practice trace predicate. -/
theorem practice_pred_of_all (tr : List Act)
    (h : (tr.all fun a => !a.isWireMutation && practiceWriteOk a) = true) :
    ∀ x ∈ tr, x.isWireMutation = false ∧ practiceWriteOk x = true := by
  intro x hx
  rw [List.all_eq_true] at h
  have h2 := h x hx
  simp only [Bool.and_eq_true, Bool.not_eq_true'] at h2
  exact h2

/-- C9 (amended): with the `Practice` flag set, a `SyncFile`
reconciliation never issues a mutating remote request, and the only
durable writes it can perform are cache row deletions and the
server-sourced cache insert made by `LstatServer` after a HEAD hit —
the latter a write beyond the `UploadFile` pre-delete. -/
theorem practice_frame (p : Propolis) (env : Env) (push : Bool) (hp : p.practice = true) :
    (SyncFile p env push).1.all
      (fun a => !a.isWireMutation && practiceWriteOk a) = true := by
  have hls := lstat_trace_practice env
  have hpt := practice_pred_of_all _ hls
  unfold SyncFile
  generalize hL : LstatServer env = ls at hls hpt
  by_cases hf : ls.failed = true
  · simp [hf, hls]
  · cases hlo : env.localInfo with
    | none =>
      cases hco : ls.cacheInfo with
      | none => simp [hf, hlo, hco, hls]
      | some c =>
        cases push with
        | true => simp [hf, hlo, hco, hp, hls]
        | false => simp [hf, hlo, hco, hls]
    | some l =>
      cases push with
      | true =>
        by_cases hdif : (ls.cacheInfo.isNone || metaDiffers l (ls.cacheInfo.getD l)) = true
        · cases hU : UploadFile p env l ls.cacheInfo ls.cacheHashHex "" with
          | mk tr e =>
            have h2 := upload_trace_practice p env l ls.cacheInfo ls.cacheHashHex "" hp
            rw [hU] at h2
            simp only [List.all_eq_true] at h2 ⊢
            intro a ha
            simp only [hf, hlo, hdif, hU, Bool.false_eq_true, if_false, if_true] at ha
            simp only [List.mem_append] at ha
            rcases ha with ha | ha
            · rw [List.all_eq_true] at hls
              exact hls a ha
            · exact h2 a ha
        · by_cases hpar : p.paranoid = true
          · cases hmd : env.getMd5Ok with
            | false =>
              simp only [hf, hlo, hdif, hpar, hmd]
              simp only [List.all_eq_true]
              intro a ha
              simp only [Bool.false_eq_true, if_false, if_true, List.mem_append,
                List.mem_cons, List.not_mem_nil, or_false] at ha
              rcases ha with ha | ha
              · have h3 := hpt a ha
                simp only [Bool.and_eq_true, Bool.not_eq_true']
                exact h3
              · subst ha
                decide
            | true =>
              by_cases hhash : (env.localHashHex == ls.cacheHashHex) = true
              · simp only [hf, hlo, hdif, hpar, hmd, hhash]
                simp only [List.all_eq_true]
                intro a ha
                simp only [Bool.false_eq_true, if_false, if_true, List.mem_append,
                  List.mem_cons, List.not_mem_nil, or_false] at ha
                rcases ha with ha | ha | ha
                · have h3 := hpt a ha
                  simp only [Bool.and_eq_true, Bool.not_eq_true']
                  exact h3
                · subst ha
                  decide
                · subst ha
                  decide
              · cases hU : UploadFile p env l ls.cacheInfo ls.cacheHashHex env.localHashHex with
                | mk tr e =>
                  have h2 := upload_trace_practice p env l ls.cacheInfo ls.cacheHashHex
                    env.localHashHex hp
                  rw [hU] at h2
                  simp only [List.all_eq_true] at h2 ⊢
                  intro a ha
                  simp only [hf, hlo, hdif, hpar, hmd, hhash, hU, Bool.false_eq_true,
                    if_false, if_true] at ha
                  simp only [List.mem_append, List.mem_cons, List.not_mem_nil,
                    or_false] at ha
                  rcases ha with (ha | ha) | ha
                  · rw [List.all_eq_true] at hls
                    exact hls a ha
                  · subst ha
                    decide
                  · exact h2 a ha
          · simp [hf, hlo, hdif, hpar, hls]
      | false =>
        cases hco : ls.cacheInfo with
        | none => simp [hf, hlo, hco, hp, hls]
        | some c =>
          by_cases hdif : metaDiffers l c = true
          · simp [hf, hlo, hco, hdif, hls]
          · by_cases hpar : p.paranoid = true
            · cases hmd : env.getMd5Ok with
              | false =>
                simp only [hf, hlo, hco, hdif, hpar, hmd]
                simp only [List.all_eq_true]
                intro a ha
                simp only [hdif, Option.isNone_some, Option.getD_some, Bool.false_eq_true,
                  Bool.false_or, if_false, if_true, List.mem_append, List.mem_cons,
                  List.not_mem_nil, or_false] at ha
                rcases ha with ha | ha
                · have h3 := hpt a ha
                  simp only [Bool.and_eq_true, Bool.not_eq_true']
                  exact h3
                · subst ha
                  decide
              | true =>
                by_cases hhash : (env.localHashHex == ls.cacheHashHex) = true
                · simp only [hf, hlo, hco, hdif, hpar, hmd, hhash]
                  simp only [List.all_eq_true]
                  intro a ha
                  simp only [hdif, Option.isNone_some, Option.getD_some, Bool.false_eq_true,
                    Bool.false_or, if_false, if_true, List.mem_append, List.mem_cons,
                    List.not_mem_nil, or_false] at ha
                  rcases ha with ha | ha | ha
                  · have h3 := hpt a ha
                    simp only [Bool.and_eq_true, Bool.not_eq_true']
                    exact h3
                  · subst ha
                    decide
                  · subst ha
                    decide
                · simp only [hf, hlo, hco, hdif, hpar, hmd, hhash]
                  simp only [List.all_eq_true]
                  intro a ha
                  simp only [hdif, Option.isNone_some, Option.getD_some, Bool.false_eq_true,
                    Bool.false_or, if_false, if_true, List.mem_append, List.mem_cons,
                    List.not_mem_nil, or_false] at ha
                  rcases ha with ha | ha | ha
                  · have h3 := hpt a ha
                    simp only [Bool.and_eq_true, Bool.not_eq_true']
                    exact h3
                  · subst ha
                    decide
                  · subst ha
                    decide
            · simp [hf, hlo, hco, hdif, hpar, hls]

/-- Practice-mode configuration for the frame counterexample. -/
def c9p : Propolis := ⟨"b", false, false, true, false⟩

/-- A regular file's metadata. -/
def c9info : FileInfo := ⟨0o100644, 0, 0, 5, 0⟩

/-- Environment with an empty cache but a server scan hash, so
`LstatServer` issues a HEAD and inserts the learned row. -/
def c9env : Env :=
  ⟨"a", some c9info, [], "srvhash", some c9info, true, "deadbeef", true, none,
    true, true, true, true, true, true⟩

/-- C9 counterexample: in a practice run, `LstatServer` still inserts a
cache row learned from the HEAD response (`SetFileInfo(elt, false)`), so
the pre-delete in `UploadFile` is not the only write a practice run can
perform. -/
theorem practice_write_counterexample :
    c9p.practice = true ∧
      (SyncFile c9p c9env true).1 =
        [.getFileInfo, .statRequest true, .setFileInfo false true] ∧
      ((SyncFile c9p c9env true).1.any
        (fun a => a.isWrite &&
          !(a == .deleteFileInfo true || a == .deleteFileInfo false))) = true := by
  refine ⟨rfl, by decide, by decide⟩

/-- Witness for the practice-mode frame at a concrete practice run. -/
theorem practice_frame_witness :
    c9p.practice = true ∧
      (SyncFile c9p c9env false).1.all
        (fun a => !a.isWireMutation && practiceWriteOk a) = true :=
  ⟨rfl, practice_frame c9p c9env false rfl⟩

/-! ## The Push decision table (C1) -/

/-- C1: the three-way Push decision table of `SyncFile`, for runs in
which the server view comes from the cache (`ServerHashHex` empty, the
watch/queue path, so `C` is exactly the cache row) and practice mode is
off.  `L` is the local stat, `C` the cache row: both absent is a no-op
(the trace is just the cache read); `L` absent with `C` present issues
`DeleteRequest` first and `DeleteFileInfo` only after the request
succeeds; `L` present with `C` absent or any of the five metadata fields
differing delegates to the remote update `UploadFile`; otherwise nothing
happens unless `Paranoid` is set, in which case the file is hashed and
the run is a no-op exactly when the fresh hash equals the cached md5,
delegating to `UploadFile` with the fresh hash when it differs. -/
theorem syncfile_push_table (p : Propolis) (env : Env)
    (hsrv : env.serverHashHex = "") (hpr : p.practice = false) :
    ((env.localInfo = none ∧ GetFileInfo env.cache env.serverPath = none) →
        (SyncFile p env true).1 = [.getFileInfo]) ∧
      (∀ row, env.localInfo = none → GetFileInfo env.cache env.serverPath = some row →
        (SyncFile p env true).1 =
          .getFileInfo :: .deleteRequest env.deleteRequestOk ::
            (if env.deleteRequestOk then [.deleteFileInfo env.dbDeleteOk] else [])) ∧
      (∀ l, env.localInfo = some l → GetFileInfo env.cache env.serverPath = none →
        (SyncFile p env true).1 = .getFileInfo :: (UploadFile p env l none "" "").1) ∧
      (∀ l row, env.localInfo = some l →
        GetFileInfo env.cache env.serverPath = some row →
        metaDiffers l row.info = true →
        (SyncFile p env true).1 =
          .getFileInfo :: (UploadFile p env l (some row.info) row.md5 "").1) ∧
      (∀ l row, env.localInfo = some l →
        GetFileInfo env.cache env.serverPath = some row →
        metaDiffers l row.info = false →
        ((p.paranoid = false → (SyncFile p env true).1 = [.getFileInfo]) ∧
          (p.paranoid = true → env.getMd5Ok = true →
            (env.localHashHex == row.md5) = true →
            (SyncFile p env true).1 = [.getFileInfo, .getMd5 true, .closeContents]) ∧
          (p.paranoid = true → env.getMd5Ok = true →
            (env.localHashHex == row.md5) = false →
            (SyncFile p env true).1 =
              .getFileInfo :: .getMd5 true ::
                (UploadFile p env l (some row.info) row.md5 env.localHashHex).1))) := by
  have hL : LstatServer env =
      (match GetFileInfo env.cache env.serverPath with
        | some row => ⟨[.getFileInfo], some row.info, row.md5, false⟩
        | none => ⟨[.getFileInfo], none, "", false⟩) := by
    unfold LstatServer
    cases GetFileInfo env.cache env.serverPath with
    | some row => rfl
    | none => simp [hsrv]
  refine ⟨?_, ?_, ?_, ?_, ?_⟩
  · rintro ⟨hlo, hco⟩
    unfold SyncFile
    rw [hL, hco]
    simp [hlo]
  · intro row hlo hco
    unfold SyncFile
    rw [hL, hco]
    cases hdr : env.deleteRequestOk with
    | true => simp [hlo, hpr, hdr]
    | false => simp [hlo, hpr, hdr]
  · intro l hlo hco
    unfold SyncFile
    rw [hL, hco]
    cases hU : UploadFile p env l none "" "" with
    | mk tr e => simp [hlo, hU]
  · intro l row hlo hco hdif
    unfold SyncFile
    rw [hL, hco]
    cases hU : UploadFile p env l (some row.info) row.md5 "" with
    | mk tr e => simp [hlo, hdif, hU]
  · intro l row hlo hco hdif
    refine ⟨?_, ?_, ?_⟩
    · intro hpar
      unfold SyncFile
      rw [hL, hco]
      simp [hlo, hdif, hpar]
    · intro hpar hmd hhash
      unfold SyncFile
      rw [hL, hco]
      simp [hlo, hdif, hpar, hmd, hhash]
    · intro hpar hmd hhash
      unfold SyncFile
      rw [hL, hco]
      cases hU : UploadFile p env l (some row.info) row.md5 env.localHashHex with
      | mk tr e => simp [hlo, hdif, hpar, hmd, hhash, hU]

/-- Configuration for the decision-table witness (all flags off). -/
def c1p : Propolis := ⟨"b", false, false, false, false⟩

/-- A cached row for path `a`. -/
def c1row : CacheRow := ⟨"a", "h1", 0, 0, 33188, 0, 3⟩

/-- Environment for the remote-delete line of the table: local file
gone, cache row present, no scan hash. -/
def c1env : Env :=
  ⟨"a", none, [c1row], "", none, true, "", true, none,
    true, true, true, true, true, true⟩

/-- Witness for the decision table: the remote-delete line at a concrete
environment, `DeleteRequest` before `DeleteFileInfo`. -/
theorem syncfile_push_table_witness :
    c1env.serverHashHex = "" ∧ c1p.practice = false ∧
      (SyncFile c1p c1env true).1 =
        [.getFileInfo, .deleteRequest true, .deleteFileInfo true] := by
  refine ⟨rfl, rfl, ?_⟩
  have h := (syncfile_push_table c1p c1env rfl rfl).2.1 c1row rfl (by decide)
  rw [h]
  decide

/-- Environment for the no-op-line counterexample: no local file, empty
cache, but a scan hash, and the HEAD gets a 404. -/
def c1bEnv : Env :=
  ⟨"a", none, [], "x", none, true, "", true, none,
    true, true, true, true, true, true⟩

/-- C1 counterexample: with `L = nil` and `C = nil` the run is not
always free of wire calls — when the element carries a server scan hash
and the cache misses, `LstatServer` issues a read-only HEAD (here
answered 404), so the trace contains a wire call. -/
theorem syncfile_push_noop_counterexample :
    c1bEnv.localInfo = none ∧
      GetFileInfo c1bEnv.cache c1bEnv.serverPath = none ∧
      (SyncFile c1p c1bEnv true).1 = [.getFileInfo, .statRequest false] ∧
      ((SyncFile c1p c1bEnv true).1.any Act.isWireCall) = true := by
  refine ⟨rfl, rfl, by decide, by decide⟩

/-! ## Scheduler in-flight cap (C4) -/

/-- Helper: the drain loop preserves the in-flight bound — it only
increments the counter after checking `inflight < maxInFlight`. -/
theorem drainGo_inflight_le (cfg : QConfig) (now : Int) (shutdown : Bool) :
    ∀ (fuel : Nat) (q : List Candidate) (inflight : Nat),
      inflight ≤ cfg.maxInFlight →
      (drainGo cfg now shutdown fuel q inflight).2.1 ≤ cfg.maxInFlight := by
  intro fuel
  induction fuel with
  | zero => intro q inflight h; exact h
  | succ fuel ih =>
    intro q inflight h
    cases q with
    | nil => exact h
    | cons c rest =>
      simp only [drainGo]
      by_cases h1 : (c.inserted != c.updated) = true
      · rw [if_pos h1]
        exact ih _ _ h
      · rw [if_neg h1]
        by_cases h2 : (now - c.inserted < delayNs cfg && !shutdown) = true
        · rw [if_pos h2]
          exact h
        · rw [if_neg h2]
          by_cases h3 : inflight < cfg.maxInFlight
          · rw [if_pos h3]
            exact ih rest (inflight + 1) h3
          · rw [if_neg h3]
            exact h

/-- Helper: arming the sleeper never touches the in-flight counter. -/
theorem armSleeper_inflight (cfg : QConfig) (s : QState) :
    (armSleeper cfg s).inflight = s.inflight := by
  unfold armSleeper
  split <;> rfl

/-- C4: in every reachable coordinator state the in-flight counter never
exceeds `maxInFlight` — the drain loop spawns a worker only when
`inflight < maxInFlight`, incrementing at spawn, and a `finished` signal
decrements — so at no instant do more than `maxInFlight`
reconciliations run concurrently. -/
theorem inflight_le_max (cfg : QConfig) (s : QState) (h : QReachable cfg s) :
    s.inflight ≤ cfg.maxInFlight := by
  induction h with
  | init => exact Nat.zero_le _
  | next hr hv ih =>
    rename_i s2 e
    show (armSleeper cfg (handleEvent cfg s2 e).1).inflight ≤ cfg.maxInFlight
    rw [armSleeper_inflight]
    cases e with
    | ingress fn now =>
      simp only [handleEvent]
      split
      · exact ih
      · exact ih
    | timeout now =>
      simp only [handleEvent]
      exact drainGo_inflight_le cfg now s2.shutdown _ s2.queue s2.inflight ih
    | finished =>
      simp only [handleEvent]
      exact le_trans (Nat.sub_le _ _) ih
    | quit =>
      simp only [handleEvent]
      exact ih

/-- Witness: the bound at a concrete reachable state (one ingress event
under `maxInFlight = 2`). -/
theorem inflight_le_max_witness :
    ((qstep ⟨1, 2⟩ initQ (.ingress ⟨"a", false, true⟩ 5)).1).inflight ≤
      (⟨1, 2⟩ : QConfig).maxInFlight :=
  inflight_le_max ⟨1, 2⟩ _ (QReachable.next QReachable.init trivial)

/-! ## Debounce coalescing (C3) -/

/-- A tail of the trace containing only sleeper timeouts. -/
def AllTimeouts : List QEvent → Prop
  | [] => True
  | .timeout _ :: es => AllTimeouts es
  | _ => False

/-- Shape of the remaining trace during a burst for path `p` whose last
ingress arrived at `tL`: further ingress events for `p` (non-immediate,
time-ordered, each within `delay` of the previous), sleeper timeouts
that fire while the head is still young, and finally a timeout at least
`delay` after the last ingress, followed only by timeouts. -/
def GoodTail (cfg : QConfig) (p : String) : Int → List QEvent → Prop
  | _, [] => False
  | tL, .ingress fn t :: es =>
      fn.name = p ∧ fn.immediate = false ∧ tL ≤ t ∧ t < tL + delayNs cfg ∧
        GoodTail cfg p t es
  | tL, .timeout T :: es =>
      tL ≤ T ∧ ((T < tL + delayNs cfg ∧ GoodTail cfg p tL es) ∨
        (tL + delayNs cfg ≤ T ∧ AllTimeouts es))
  | _, .finished :: _ => False
  | _, .quit :: _ => False

/-- A burst trace for path `p` from startup: possibly timeouts on the
empty queue, then the first ingress for `p` opening a `GoodTail`. -/
def BurstEvents (cfg : QConfig) (p : String) : List QEvent → Prop
  | [] => False
  | .timeout _ :: es => BurstEvents cfg p es
  | .ingress fn t :: es => fn.name = p ∧ fn.immediate = false ∧ GoodTail cfg p t es
  | .finished :: _ => False
  | .quit :: _ => False

/-- The push flag of the last ingress event of a trace (`pu` if none). -/
def lastPushIn (pu : Bool) : List QEvent → Bool
  | [] => pu
  | .ingress fn _ :: es => lastPushIn fn.push es
  | _ :: es => lastPushIn pu es

/-- Helper: a timeout-only tail has no ingress, so the last push flag is
the accumulator. -/
theorem lastPushIn_allTimeouts (pu : Bool) (es : List QEvent) (h : AllTimeouts es) :
    lastPushIn pu es = pu := by
  induction es with
  | nil => rfl
  | cons e es ih =>
    cases e with
    | timeout T => exact ih h
    | ingress fn t => exact h.elim
    | finished => exact h.elim
    | quit => exact h.elim

/-- Helper: one step of `runQ`, dispatches split off. -/
theorem runQ_cons (cfg : QConfig) (s : QState) (e : QEvent) (es : List QEvent) :
    (runQ cfg s (e :: es)).2 = (qstep cfg s e).2 ++ (runQ cfg (qstep cfg s e).1 es).2 := rfl

/-- Helper: with an empty queue, timeouts dispatch nothing and leave the
queue empty. -/
theorem runQ_empty_timeouts (cfg : QConfig) :
    ∀ (es : List QEvent) (n : Nat) (w sd : Bool), AllTimeouts es →
      (runQ cfg ⟨[], n, w, sd⟩ es).2 = [] := by
  intro es
  induction es with
  | nil => intro n w sd h; rfl
  | cons e es ih =>
    intro n w sd h
    cases e with
    | timeout T =>
      have hq : qstep cfg ⟨[], n, w, sd⟩ (.timeout T) = (⟨[], n, false, sd⟩, []) := by
        simp [qstep, handleEvent, armSleeper, drain, drainGo, touchedCount]
      rw [runQ_cons, hq]
      simp only [List.nil_append]
      exact ih n false sd h
    | ingress fn t => exact h.elim
    | finished => exact h.elim
    | quit => exact h.elim

/-- Helper: the sleeper-arming step only touches the `waiting` flag. -/
theorem armSleeper_shape (cfg : QConfig) (q : List Candidate) (n : Nat) (w sd : Bool) :
    ∃ w2, armSleeper cfg ⟨q, n, w, sd⟩ = ⟨q, n, w2, sd⟩ := by
  unfold armSleeper
  split
  · exact ⟨true, rfl⟩
  · exact ⟨w, rfl⟩

/-- Helper: a drain while the (possibly touched) single candidate is
still within `delay` of its last update requeues it, normalized, and
dispatches nothing. -/
theorem drain_young (cfg : QConfig) (T : Int) (p : String) (ins tL : Int) (pu : Bool)
    (hins : ins ≤ tL) (hy : T - tL < delayNs cfg) :
    drain cfg T false [⟨p, ins, tL, pu⟩] 0 = ([⟨p, tL, tL, pu⟩], 0, []) := by
  by_cases hi : ins = tL
  · subst hi
    unfold drain
    simp [touchedCount, drainGo, qinsert, hy, bne_self_eq_false]
  · have hne : (ins != tL) = true := by
      simp only [bne_iff_ne, ne_eq]
      exact hi
    unfold drain
    simp [touchedCount, hne, drainGo, qinsert, hy, bne_self_eq_false]

/-- Helper: a drain at least `delay` after the last update dispatches
the candidate once (a worker slot being free) and empties the queue. -/
theorem drain_fire (cfg : QConfig) (T : Int) (p : String) (ins tL : Int) (pu : Bool)
    (hins : ins ≤ tL) (hf : delayNs cfg ≤ T - tL) (hmax : 0 < cfg.maxInFlight) :
    drain cfg T false [⟨p, ins, tL, pu⟩] 0 = ([], 1, [(p, pu)]) := by
  have hy : ¬(T - tL < delayNs cfg) := by omega
  by_cases hi : ins = tL
  · subst hi
    unfold drain
    simp [touchedCount, drainGo, qinsert, hy, hmax, bne_self_eq_false]
  · have hne : (ins != tL) = true := by
      simp only [bne_iff_ne, ne_eq]
      exact hi
    unfold drain
    simp [touchedCount, hne, drainGo, qinsert, hy, hmax, bne_self_eq_false]

/-- Helper: from a single-candidate state, a `GoodTail` trace dispatches
the path exactly once, with the push flag of its last ingress. -/
theorem burst_tail (cfg : QConfig) (p : String) (hmax : 0 < cfg.maxInFlight) :
    ∀ (es : List QEvent) (tL ins : Int) (pu : Bool) (w : Bool),
      ins ≤ tL → GoodTail cfg p tL es →
      (runQ cfg ⟨[⟨p, ins, tL, pu⟩], 0, w, false⟩ es).2 = [(p, lastPushIn pu es)] := by
  intro es
  induction es with
  | nil =>
    intro tL ins pu w hins hg
    exact hg.elim
  | cons e es ih =>
    intro tL ins pu w hins hg
    cases e with
    | ingress fn t =>
      obtain ⟨hname, himm, hle, _hgap, hg2⟩ := hg
      have hq : qstep cfg ⟨[⟨p, ins, tL, pu⟩], 0, w, false⟩ (.ingress fn t)
          = (armSleeper cfg ⟨[⟨p, ins, t, fn.push⟩], 0, w, false⟩, []) := by
        simp [qstep, handleEvent, touchCand, hname]
      obtain ⟨w2, hw2⟩ := armSleeper_shape cfg [⟨p, ins, t, fn.push⟩] 0 w false
      rw [runQ_cons, hq, hw2]
      simp only [List.nil_append]
      rw [ih t ins fn.push w2 (le_trans hins hle) hg2]
      rfl
    | timeout T =>
      obtain ⟨hle, hcase⟩ := hg
      rcases hcase with ⟨hyoung, hg2⟩ | ⟨hfar, hall⟩
      · have hy : T - tL < delayNs cfg := by omega
        have hq : qstep cfg ⟨[⟨p, ins, tL, pu⟩], 0, w, false⟩ (.timeout T)
            = (armSleeper cfg ⟨[⟨p, tL, tL, pu⟩], 0, false, false⟩, []) := by
          simp [qstep, handleEvent, drain_young cfg T p ins tL pu hins hy]
        obtain ⟨w2, hw2⟩ := armSleeper_shape cfg [⟨p, tL, tL, pu⟩] 0 false false
        rw [runQ_cons, hq, hw2]
        simp only [List.nil_append]
        rw [ih tL tL pu w2 le_rfl hg2]
        rfl
      · have hf : delayNs cfg ≤ T - tL := by omega
        have hq : qstep cfg ⟨[⟨p, ins, tL, pu⟩], 0, w, false⟩ (.timeout T)
            = (armSleeper cfg ⟨[], 1, false, false⟩, [(p, pu)]) := by
          simp [qstep, handleEvent, drain_fire cfg T p ins tL pu hins hf hmax]
        obtain ⟨w2, hw2⟩ := armSleeper_shape cfg [] 1 false false
        rw [runQ_cons, hq, hw2]
        rw [runQ_empty_timeouts cfg es 1 w2 false hall]
        show [(p, pu)] = [(p, lastPushIn pu es)]
        rw [lastPushIn_allTimeouts pu es hall]
    | finished =>
      exact hg.elim
    | quit =>
      exact hg.elim

/-- C3: debounce coalescing — for every burst of N ≥ 1 ingress events
naming the same path, each arriving within `delay` of the previous one
(timeouts interleaved arbitrarily, with a worker slot free), the
coordinator dispatches exactly one reconciliation for the path, and it
observes the push flag of the last ingress event of the burst. -/
theorem debounce_burst (cfg : QConfig) (p : String) (hmax : 0 < cfg.maxInFlight)
    (es : List QEvent) (hb : BurstEvents cfg p es) :
    (runQ cfg initQ es).2 = [(p, lastPushIn false es)] := by
  induction es with
  | nil => exact hb.elim
  | cons e es ih =>
    cases e with
    | timeout T =>
      have hq : qstep cfg initQ (.timeout T) = (initQ, []) := by
        simp [qstep, handleEvent, armSleeper, drain, drainGo, touchedCount, initQ]
      rw [runQ_cons, hq]
      simp only [List.nil_append]
      exact ih hb
    | ingress fn t =>
      obtain ⟨hname, himm, hg⟩ := hb
      have hq : qstep cfg initQ (.ingress fn t)
          = (armSleeper cfg ⟨[⟨p, t, t, fn.push⟩], 0, false, false⟩, []) := by
        simp [qstep, handleEvent, initQ, qinsert, himm, hname]
      obtain ⟨w2, hw2⟩ := armSleeper_shape cfg [⟨p, t, t, fn.push⟩] 0 false false
      rw [runQ_cons, hq, hw2]
      simp only [List.nil_append]
      rw [burst_tail cfg p hmax es t t fn.push w2 le_rfl hg]
      rfl
    | finished => exact hb.elim
    | quit => exact hb.elim

/-- Witness for the burst theorem: two ingress events 390ns apart
(delay 1s) and a sleeper firing 2s in dispatch once with the second
event's push flag. -/
theorem debounce_burst_witness :
    (runQ ⟨1, 2⟩ initQ
        [.ingress ⟨"a", false, true⟩ 10, .ingress ⟨"a", false, false⟩ 400,
          .timeout 2000000000]).2 = [("a", false)] := by
  have h := debounce_burst ⟨1, 2⟩ "a" (by decide)
    [.ingress ⟨"a", false, true⟩ 10, .ingress ⟨"a", false, false⟩ 400,
      .timeout 2000000000]
    ⟨rfl, rfl, rfl, rfl, by decide, by decide,
      ⟨by decide, Or.inr ⟨by decide, trivial⟩⟩⟩
  rw [h]
  rfl
